import Mathlib

/-!
Verification development for the write-back entity cache of the
`tg-chat-manager` repository.

The Python managers (`src/core/managers/users.py`, `nicks.py`,
`user_roles.py`) are shallowly embedded here.  Python attribute values are
modelled by the closed universe `Val`; Python `dict`s become association
lists with first-match lookup whose `insert` keeps the original slot
(Python dicts preserve insertion order and replace in place); Python `set`s
become duplicate-free lists.  The database store is modelled by explicit
row lists, and every store round-trip performed by an operation is recorded
in a `StoreOp` trace, so "performs no store I/O" is a statement about the
trace.  `copy.deepcopy` is the identity at this value level; object
identity (needed for the reference-leak claim) is modelled separately by a
small heap: addresses in place of objects.
-/

namespace TgCache

/-- Python attribute values as used by the cache managers: `None`, ints
(Telegram ids, counters, db ids), strings (names, nicks) and booleans.
Mutable containers (dicts) behave like values here because `deepcopy` and
equality are all the managers ever do with them. -/
inductive Val where
  | vNone : Val
  | vInt : Int → Val
  | vStr : String → Val
  | vBool : Bool → Val
deriving DecidableEq, Repr

/-- Python truthiness of a `Val` (`if x:`). -/
def Val.truthy : Val → Bool
  | .vNone => false
  | .vInt i => decide (i ≠ 0)
  | .vStr s => decide (s ≠ "")
  | .vBool b => b

/-- First-match lookup in an association list, the model of `dict.get`. -/
def alGet [DecidableEq α] : List (α × β) → α → Option β
  | [], _ => none
  | (a, b) :: t, k => if a = k then some b else alGet t k

/-- Model of `dict[k] = v`: replace in place if the key is present,
append otherwise. -/
def alInsert [DecidableEq α] : List (α × β) → α → β → List (α × β)
  | [], k, v => [(k, v)]
  | (a, b) :: t, k, v => if a = k then (a, v) :: t else (a, b) :: alInsert t k v

/-- Model of `del d[k]` / `dict.pop(k, None)`. -/
def alErase [DecidableEq α] : List (α × β) → α → List (α × β)
  | [], _ => []
  | (a, b) :: t, k => if a = k then alErase t k else (a, b) :: alErase t k

/-- Model of `set.add`. -/
def sAdd [DecidableEq α] (l : List α) (k : α) : List α :=
  if k ∈ l then l else l ++ [k]

/-- Model of `set.discard`. -/
def sDiscard [DecidableEq α] : List α → α → List α
  | [], _ => []
  | a :: t, k => if a = k then sDiscard t k else a :: sDiscard t k

section AlLemmas

variable [DecidableEq α]

@[simp] theorem alGet_nil (k : α) : alGet ([] : List (α × β)) k = none := rfl

theorem alGet_alInsert (l : List (α × β)) (k k2 : α) (v : β) :
    alGet (alInsert l k v) k2 = if k = k2 then some v else alGet l k2 := by
  induction l with
  | nil => simp [alInsert, alGet]
  | cons p t ih =>
    obtain ⟨a, b⟩ := p
    by_cases hak : a = k
    · subst hak
      simp only [alInsert, if_pos rfl, alGet]
      by_cases h2 : a = k2 <;> simp [h2]
    · simp only [alInsert, if_neg hak, alGet]
      by_cases h2 : a = k2
      · subst h2
        have hk : ¬ k = a := fun h => hak h.symm
        simp [hk]
      · simp [h2, ih]

@[simp] theorem alGet_alInsert_self (l : List (α × β)) (k : α) (v : β) :
    alGet (alInsert l k v) k = some v := by
  simp [alGet_alInsert]

theorem alGet_alInsert_ne (l : List (α × β)) {k k2 : α} (v : β) (h : k ≠ k2) :
    alGet (alInsert l k v) k2 = alGet l k2 := by
  simp [alGet_alInsert, h]

theorem alGet_alErase (l : List (α × β)) (k k2 : α) :
    alGet (alErase l k) k2 = if k = k2 then none else alGet l k2 := by
  induction l with
  | nil => simp [alErase, alGet]
  | cons p t ih =>
    obtain ⟨a, b⟩ := p
    by_cases hak : a = k
    · subst hak
      by_cases h2 : a = k2
      · subst h2; simpa [alErase, alGet] using ih
      · simpa [alErase, alGet, h2] using ih
    · by_cases h2 : a = k2
      · subst h2
        have hk : ¬ k = a := fun h => hak h.symm
        simp [alErase, alGet, hak, hk]
      · simp [alErase, alGet, hak, h2, ih]

theorem alGet_isSome_alInsert (l : List (α × β)) (k k2 : α) (v : β)
    (h : (alGet l k2).isSome) : (alGet (alInsert l k v) k2).isSome := by
  by_cases h2 : k = k2 <;> simp [alGet_alInsert, h2, h]

@[simp] theorem mem_sAdd (l : List α) (k a : α) :
    a ∈ sAdd l k ↔ a ∈ l ∨ a = k := by
  by_cases h : k ∈ l
  · simp only [sAdd, if_pos h]
    constructor
    · exact Or.inl
    · rintro (h2 | rfl) <;> [exact h2; exact h]
  · simp [sAdd, if_neg h]

@[simp] theorem mem_sDiscard (l : List α) (k a : α) :
    a ∈ sDiscard l k ↔ a ∈ l ∧ a ≠ k := by
  induction l with
  | nil => simp [sDiscard]
  | cons b t ih =>
    by_cases hb : b = k
    · subst hb
      rw [show sDiscard (b :: t) b = sDiscard t b by simp [sDiscard]]
      rw [ih, List.mem_cons]
      constructor
      · rintro ⟨h1, h2⟩
        exact ⟨Or.inr h1, h2⟩
      · rintro ⟨rfl | h1, h2⟩
        · exact absurd rfl h2
        · exact ⟨h1, h2⟩
    · rw [show sDiscard (b :: t) k = b :: sDiscard t k by simp [sDiscard, hb]]
      simp only [List.mem_cons, ih]
      constructor
      · rintro (rfl | ⟨h1, h2⟩)
        · exact ⟨Or.inl rfl, hb⟩
        · exact ⟨Or.inr h1, h2⟩
      · rintro ⟨rfl | h1, h2⟩
        · exact Or.inl rfl
        · exact Or.inr ⟨h1, h2⟩

theorem sDiscard_sublist (l : List α) (k : α) : List.Sublist (sDiscard l k) l := by
  induction l with
  | nil => simp [sDiscard]
  | cons b t ih =>
    by_cases hb : b = k
    · simpa [sDiscard, hb] using List.Sublist.cons b ih
    · simpa [sDiscard, hb] using List.Sublist.cons₂ b ih

theorem sAdd_nodup {l : List α} (h : l.Nodup) (k : α) : (sAdd l k).Nodup := by
  by_cases hk : k ∈ l
  · simpa [sAdd, hk] using h
  · simp only [sAdd, if_neg hk]
    refine List.Nodup.append h (List.nodup_singleton k) ?_
    intro a ha hmem
    rw [List.mem_singleton] at hmem
    exact hk (hmem ▸ ha)

theorem sDiscard_nodup {l : List α} (h : l.Nodup) (k : α) : (sDiscard l k).Nodup :=
  (sDiscard_sublist l k).nodup h

theorem sDiscard_subset (l : List α) (k : α) : sDiscard l k ⊆ l :=
  (sDiscard_sublist l k).subset

end AlLemmas

/-- One entry of the `StoreOp` trace: a round-trip to the durable store, as
issued by the manager code.  `get(...)` issues none; `sync()` with an empty
dirty set issues none. -/
inductive StoreOp where
  | getOrCreate (tg : Val)
  | deleteByTg (tg : Val)
  | loadAll
  | filterByTgs (tgs : List Val)
  | bulkUpdate (n : Nat)
  | bulkCreate (n : Nat)
  | nickEnsure (k : Val × Val)
  | nickDelete (k : Val × Val)
  | nickReads
  | roleEnsure (k : Val × Val)
  | roleDelete (k : Val × Val)
  | roleReads
  | ensureUserRow (tg : Val)
deriving DecidableEq, Repr

/-! ## users.py: `_CachedUser`, `UserRepository`, `UserCache` -/

/-- The `_CachedUser` dataclass of `users.py`.  Every field holds a dynamic
Python value. -/
structure CachedUser where
  id : Val
  tg_user_id : Val
  username : Val
  first_name : Val
  last_name : Val
  is_bot : Val
  is_owner : Val
  banned_until : Val
  messages_count : Val
  meta : Val
  created_at : Val
  last_seen : Val
deriving DecidableEq, Repr

/-- The attribute names of `_CachedUser`; `hasattr` on an instance is
membership here (no other instance attribute is ever created, because
`edit` assigns only under a `hasattr` guard). -/
def userFieldNames : List String :=
  ["id", "tg_user_id", "username", "first_name", "last_name", "is_bot",
   "is_owner", "banned_until", "messages_count", "meta", "created_at", "last_seen"]

/-- The field tuple that `UserCache.sync` compares and flushes (the literal
list in the source's update loop and in its `bulk_update(fields=[...])`). -/
def persistedUserFields : List String :=
  ["username", "first_name", "last_name", "is_bot", "is_owner",
   "banned_until", "messages_count", "meta", "last_seen"]

/-- Python `getattr(obj, f, None)` on a `_CachedUser`. -/
def CachedUser.getattr (u : CachedUser) (f : String) : Val :=
  if f = "id" then u.id
  else if f = "tg_user_id" then u.tg_user_id
  else if f = "username" then u.username
  else if f = "first_name" then u.first_name
  else if f = "last_name" then u.last_name
  else if f = "is_bot" then u.is_bot
  else if f = "is_owner" then u.is_owner
  else if f = "banned_until" then u.banned_until
  else if f = "messages_count" then u.messages_count
  else if f = "meta" then u.meta
  else if f = "created_at" then u.created_at
  else if f = "last_seen" then u.last_seen
  else Val.vNone

/-- Python `setattr(obj, f, v)` on a `_CachedUser`; an unknown name leaves
the record unchanged (in the source, `edit` only calls `setattr` under a
`hasattr` guard, so the unknown-name case is never reached through it). -/
def CachedUser.setattr (u : CachedUser) (f : String) (v : Val) : CachedUser :=
  if f = "id" then { u with id := v }
  else if f = "tg_user_id" then { u with tg_user_id := v }
  else if f = "username" then { u with username := v }
  else if f = "first_name" then { u with first_name := v }
  else if f = "last_name" then { u with last_name := v }
  else if f = "is_bot" then { u with is_bot := v }
  else if f = "is_owner" then { u with is_owner := v }
  else if f = "banned_until" then { u with banned_until := v }
  else if f = "messages_count" then { u with messages_count := v }
  else if f = "meta" then { u with meta := v }
  else if f = "created_at" then { u with created_at := v }
  else if f = "last_seen" then { u with last_seen := v }
  else u

/-- The body of `edit`'s merge loop:
`for field, value in fields.items(): if hasattr(cached, field): setattr(...)`. -/
def editFields (u : CachedUser) (fs : List (String × Val)) : CachedUser :=
  fs.foldl (fun acc p => if p.1 ∈ userFieldNames then acc.setattr p.1 p.2 else acc) u

/-- A row of the `users` table as the manager presupposes it (the columns
`UserCache.sync` reads and writes, plus key and bookkeeping columns).
`id` is the surrogate primary key assigned by the store. -/
structure UserRow where
  id : Nat
  tg_user_id : Val
  username : Val
  first_name : Val
  last_name : Val
  is_bot : Val
  is_owner : Val
  banned_until : Val
  messages_count : Val
  meta : Val
  created_at : Val
  last_seen : Val
deriving DecidableEq, Repr

/-- Column read on a `User` row (`getattr(row, field, None)` in `sync`). -/
def UserRow.colGet (r : UserRow) (f : String) : Val :=
  if f = "tg_user_id" then r.tg_user_id
  else if f = "username" then r.username
  else if f = "first_name" then r.first_name
  else if f = "last_name" then r.last_name
  else if f = "is_bot" then r.is_bot
  else if f = "is_owner" then r.is_owner
  else if f = "banned_until" then r.banned_until
  else if f = "messages_count" then r.messages_count
  else if f = "meta" then r.meta
  else if f = "created_at" then r.created_at
  else if f = "last_seen" then r.last_seen
  else Val.vNone

/-- Column write on a `User` row (defaults application in `get_or_create`,
`setattr(row, field, val)` in `sync`); unknown names are ignored. -/
def UserRow.colSet (r : UserRow) (f : String) (v : Val) : UserRow :=
  if f = "tg_user_id" then { r with tg_user_id := v }
  else if f = "username" then { r with username := v }
  else if f = "first_name" then { r with first_name := v }
  else if f = "last_name" then { r with last_name := v }
  else if f = "is_bot" then { r with is_bot := v }
  else if f = "is_owner" then { r with is_owner := v }
  else if f = "banned_until" then { r with banned_until := v }
  else if f = "messages_count" then { r with messages_count := v }
  else if f = "meta" then { r with meta := v }
  else if f = "created_at" then { r with created_at := v }
  else if f = "last_seen" then { r with last_seen := v }
  else r

/-- The `users` table plus the autoincrement counter of its primary key. -/
structure UserStore where
  rows : List UserRow
  nextId : Nat
deriving DecidableEq, Repr

/-- Well-formedness a relational store guarantees: primary keys are unique
and below the autoincrement counter, and the `unique=True` constraint on
`tg_user_id` holds. -/
def UStoreWF (st : UserStore) : Prop :=
  (st.rows.map (·.id)).Nodup ∧ (st.rows.map (·.tg_user_id)).Nodup ∧
    ∀ r ∈ st.rows, r.id < st.nextId

/-- The `DEFAULT_USER` dict of `users.py`. -/
def DEFAULT_USER : List (String × Val) :=
  [("username", Val.vNone), ("first_name", Val.vNone), ("last_name", Val.vNone),
   ("is_bot", Val.vBool false), ("is_owner", Val.vBool false),
   ("banned_until", Val.vNone), ("messages_count", Val.vInt 0),
   ("meta", Val.vNone), ("last_seen", Val.vNone)]

/-- A freshly constructed `User` row before defaults are applied
(`created_at` is filled by the store's auto-now default, abstracted as
`vNone`). -/
def baseUserRow (id : Nat) (tg : Val) : UserRow :=
  { id := id, tg_user_id := tg, username := Val.vNone, first_name := Val.vNone,
    last_name := Val.vNone, is_bot := Val.vBool false, is_owner := Val.vBool false,
    banned_until := Val.vNone, messages_count := Val.vInt 0, meta := Val.vNone,
    created_at := Val.vNone, last_seen := Val.vNone }

/-- `User.get_or_create(tg_user_id=k, defaults=...)`: return the existing
row, or insert a new one built from the defaults. -/
def UserStore.getOrCreate (st : UserStore) (k : Val) (defaults : List (String × Val)) :
    UserRow × Bool × UserStore :=
  match st.rows.find? (fun r => decide (r.tg_user_id = k)) with
  | some r => (r, false, st)
  | none =>
    let r0 := defaults.foldl (fun acc p => acc.colSet p.1 p.2) (baseUserRow st.nextId k)
    let r := { r0 with tg_user_id := k }
    (r, true, { rows := st.rows ++ [r], nextId := st.nextId + 1 })

/-- Last-wins lookup by `tg_user_id`, matching both the dict comprehension
`{row.tg_user_id: row for row in rows}` in `sync` and the overwriting
cache-fill loop in `initialize`. -/
def lastRowByTg (rows : List UserRow) (k : Val) : Option UserRow :=
  rows.foldl (fun acc r => if r.tg_user_id = k then some r else acc) none

/-- State owned by `UserCache`: the cache dict, the `_db_id_index` dict and
the `_dirty` set. -/
structure UState where
  cache : List (Val × CachedUser)
  dbIdIndex : List (Val × Val)
  dirty : List Val
deriving DecidableEq, Repr

/-- The state a freshly constructed `UserManager` hands to its cache. -/
def freshU : UState := { cache := [], dbIdIndex := [], dirty := [] }

namespace UserCache

/-- The `_CachedUser(...)` constructor call shared by `initialize` and
`_ensure_cached`, copying each column of the model row. -/
def cachedOfRow (r : UserRow) : CachedUser :=
  { id := Val.vInt (Int.ofNat r.id), tg_user_id := r.tg_user_id,
    username := r.username, first_name := r.first_name, last_name := r.last_name,
    is_bot := r.is_bot, is_owner := r.is_owner, banned_until := r.banned_until,
    messages_count := r.messages_count, meta := r.meta,
    created_at := r.created_at, last_seen := r.last_seen }

/-- One row of the cold-start load: insert the record under its key
(overwriting an earlier row with the same key) and index its surrogate id
when truthy. -/
def bootStep (acc : UState) (r : UserRow) : UState :=
  { acc with
    cache := alInsert acc.cache r.tg_user_id (cachedOfRow r)
    dbIdIndex :=
      if r.id ≠ 0 then alInsert acc.dbIdIndex (Val.vInt (Int.ofNat r.id)) r.tg_user_id
      else acc.dbIdIndex }

/-- The cold-start load of `users.py` (the manager's lifecycle entry
point): bulk-load every row into the cache; the dirty set is untouched. -/
def bootLoad (s : UState) (st : UserStore) : UState × UserStore × List StoreOp :=
  (st.rows.foldl bootStep s, st, [StoreOp.loadAll])

/-- `UserCache._ensure_cached`: return early when cached; otherwise run the
repository's idempotent `ensure_record` (which merges `DEFAULT_USER` under
the caller's defaults) and insert the resulting record. -/
def ensureCached (s : UState) (st : UserStore) (k : Val) (initial : List (String × Val)) :
    UState × UserStore × List StoreOp :=
  if (alGet s.cache k).isSome then (s, st, [])
  else
    let merged := initial.foldl (fun acc p => alInsert acc p.1 p.2) DEFAULT_USER
    let (row, _, st1) := st.getOrCreate k merged
    ({ s with
        cache := alInsert s.cache k (cachedOfRow row)
        dbIdIndex :=
          if row.id ≠ 0 then alInsert s.dbIdIndex (Val.vInt (Int.ofNat row.id)) row.tg_user_id
          else s.dbIdIndex },
     st1, [StoreOp.getOrCreate k])

/-- `UserCache.get(key)` (no field selector): a pure dict read. -/
def getRecord (s : UState) (k : Val) : Option CachedUser :=
  alGet s.cache k

/-- `UserCache.get(key, "f")`: `None` for an absent key, otherwise
`getattr(obj, f, None)`.  Like the source, it performs no store I/O and no
state change, which the trace component records. -/
def getField (s : UState) (st : UserStore) (k : Val) (f : String) :
    Val × UState × UserStore × List StoreOp :=
  (match alGet s.cache k with
   | none => Val.vNone
   | some o => o.getattr f, s, st, [])

/-- `UserCache.get(key, (f1, ..., fn))`: a tuple of `None`s for an absent
key, otherwise the tuple of `getattr(obj, f, None)`. -/
def getFields (s : UState) (st : UserStore) (k : Val) (fs : List String) :
    List Val × UState × UserStore × List StoreOp :=
  (match alGet s.cache k with
   | none => fs.map (fun _ => Val.vNone)
   | some o => fs.map o.getattr, s, st, [])

/-- `UserCache.edit`: ensure the record is cached (with the edited fields
as creation defaults), merge the fields under the lock and mark the key
dirty. -/
def edit (s : UState) (st : UserStore) (k : Val) (fs : List (String × Val)) :
    UState × UserStore × List StoreOp :=
  let (s1, st1, ops) := ensureCached s st k fs
  match alGet s1.cache k with
  | none => (s1, st1, ops)
  | some cached =>
    ({ s1 with
        cache := alInsert s1.cache k (editFields cached fs)
        dirty := sAdd s1.dirty k }, st1, ops)

/-- The locked phase of `UserCache.remove`: evict from the cache, the db-id
index and the dirty set (all of it guarded by `if cache_key in self._cache`). -/
def removeLockPhase (s : UState) (k : Val) : UState :=
  match alGet s.cache k with
  | none => s
  | some cached =>
    { cache := alErase s.cache k
      dbIdIndex := if cached.id.truthy then alErase s.dbIdIndex cached.id else s.dbIdIndex
      dirty := sDiscard s.dirty k }

/-- `delete_record_by_tg`: `User.filter(tg_user_id=key).delete()`. -/
def deleteByTg (st : UserStore) (k : Val) : UserStore :=
  { st with rows := st.rows.filter (fun r => decide (r.tg_user_id ≠ k)) }

/-- `UserCache.remove`: the locked eviction phase first, then the store
delete outside the lock. -/
def remove (s : UState) (st : UserStore) (k : Val) : UState × UserStore × List StoreOp :=
  (removeLockPhase s k, deleteByTg st k, [StoreOp.deleteByTg k])

/-- `UserCache.increment_messages_count`: `False` and no change when the
key is not cached; otherwise `messages_count += 1` and mark dirty.  `none`
models the `TypeError` Python raises when `+=` is applied to a non-integer
value (unreachable from type-correct states). -/
def incrementMessagesCount (s : UState) (k : Val) : Option (UState × Bool) :=
  match alGet s.cache k with
  | none => some (s, false)
  | some obj =>
    match obj.messages_count with
    | Val.vInt i =>
      some ({ s with
          cache := alInsert s.cache k { obj with messages_count := Val.vInt (i + 1) }
          dirty := sAdd s.dirty k }, true)
    | _ => none

/-- The snapshot taken under the lock at the start of `sync`: deep copies
of the cached records of the dirty keys still present in the cache. -/
def syncSnapshot (s : UState) : List (Val × CachedUser) :=
  s.dirty.filterMap (fun k => (alGet s.cache k).map (fun c => (k, c)))

/-- The net effect of `sync`'s per-field update loop on an existing row:
each flushed column is set to the cached value, and the row counts as
changed when any column differed. -/
def rowUpdateFromCached (row : UserRow) (c : CachedUser) : UserRow × Bool :=
  ({ row with
      username := c.username
      first_name := c.first_name
      last_name := c.last_name
      is_bot := c.is_bot
      is_owner := c.is_owner
      banned_until := c.banned_until
      messages_count := c.messages_count
      meta := c.meta
      last_seen := c.last_seen },
   decide (¬ (row.username = c.username ∧ row.first_name = c.first_name ∧
      row.last_name = c.last_name ∧ row.is_bot = c.is_bot ∧
      row.is_owner = c.is_owner ∧ row.banned_until = c.banned_until ∧
      row.messages_count = c.messages_count ∧ row.meta = c.meta ∧
      row.last_seen = c.last_seen)))

/-- `User(tg_user_id=cached.tg_user_id, ...)` as built in `sync`'s create
branch; the store assigns `id` and the auto-now `created_at`. -/
def rowOfCached (id : Nat) (c : CachedUser) : UserRow :=
  { id := id, tg_user_id := c.tg_user_id, username := c.username,
    first_name := c.first_name, last_name := c.last_name, is_bot := c.is_bot,
    is_owner := c.is_owner, banned_until := c.banned_until,
    messages_count := c.messages_count, meta := c.meta,
    created_at := Val.vNone, last_seen := c.last_seen }

/-- `User.bulk_create`: append the new rows, assigning autoincrement ids. -/
def bulkCreateRows (st : UserStore) (cs : List CachedUser) : UserStore :=
  cs.foldl (fun acc c =>
    { rows := acc.rows ++ [rowOfCached acc.nextId c], nextId := acc.nextId + 1 }) st

/-- The partition loop of `sync` over one batch, item by item: an existing
row is updated through the working copies of the fetched rows (so repeated
hits on one row chain like the aliased Python objects) and its id queued
for `bulk_update`; an unmatched payload is queued for `bulk_create`. -/
def processItems (work : List UserRow) (updIds : List Nat) (toCreate : List CachedUser) :
    List (Val × CachedUser) → List UserRow × List Nat × List CachedUser
  | [] => (work, updIds, toCreate)
  | item :: rest =>
    match lastRowByTg work item.1 with
    | some row =>
      let (row2, changed) := rowUpdateFromCached row item.2
      if changed then
        processItems (work.map (fun r => if r.id = row2.id then row2 else r))
          (sAdd updIds row2.id) toCreate rest
      else processItems work updIds toCreate rest
    | none => processItems work updIds (toCreate ++ [item.2]) rest

/-- One pass of `sync`'s batch loop over the fetched rows. -/
def processBatch (fetched : List UserRow) (batch : List (Val × CachedUser)) :
    List UserRow × List Nat × List CachedUser :=
  processItems fetched [] [] batch

/-- One iteration of `sync`'s batch loop: existence probe, in-memory
partition, then `bulk_update` and `bulk_create` (each skipped when its list
is empty, as in the source). -/
def syncBatch (st : UserStore) (batch : List (Val × CachedUser)) :
    UserStore × List StoreOp :=
  let tgIds := batch.map (·.1)
  let fetched := st.rows.filter (fun r => decide (r.tg_user_id ∈ tgIds))
  let (work, updIds, toCreate) := processBatch fetched batch
  let st1 :=
    if updIds = [] then st
    else { st with rows := st.rows.map (fun r =>
      if r.id ∈ updIds then
        match work.find? (fun w => decide (w.id = r.id)) with
        | some w => w
        | none => r
      else r) }
  let ops1 := [StoreOp.filterByTgs tgIds] ++
    (if updIds = [] then [] else [StoreOp.bulkUpdate updIds.length])
  let st2 := if toCreate = [] then st1 else bulkCreateRows st1 toCreate
  let ops2 := if toCreate = [] then ([] : List StoreOp) else [StoreOp.bulkCreate toCreate.length]
  (st2, ops1 ++ ops2)

/-- The store component of `syncBatch`, written as a function of the
partition result (used to reason about the batch loop equationally). -/
def syncBatchStore (st : UserStore) (batch : List (Val × CachedUser)) : UserStore :=
  let fetched := st.rows.filter (fun r => decide (r.tg_user_id ∈ batch.map (fun kc => kc.1)))
  let work := (processItems fetched [] [] batch).1
  let updIds := (processItems fetched [] [] batch).2.1
  let toCreate := (processItems fetched [] [] batch).2.2
  let st1 :=
    if updIds = [] then st
    else { st with rows := st.rows.map (fun r =>
      if r.id ∈ updIds then
        match work.find? (fun w => decide (w.id = r.id)) with
        | some w => w
        | none => r
      else r) }
  if toCreate = [] then st1 else bulkCreateRows st1 toCreate

/-- Structural worker for `chunkList`, recursing on a length bound so that
it reduces definitionally. -/
def chunkAux (b : Nat) : Nat → List α → List (List α)
  | _, [] => []
  | 0, l => [l]
  | fuel + 1, x :: xs => (x :: xs.take (b - 1)) :: chunkAux b fuel (xs.drop (b - 1))

/-- Split into batches of `b` (`range(0, len(items), batch_size)`); for the
degenerate `b = 0`, which Python rejects outright, batches of one. -/
def chunkList (b : Nat) (l : List α) : List (List α) :=
  chunkAux b l.length l

/-- The unlocked I/O phase of `sync` over the batches.  `failAt = some j`
raises the modelled store exception before batch `j` commits; the boolean
reports whether the exception fired (the source catches it, logs and
returns). -/
def syncIO : List (List (Val × CachedUser)) → UserStore → Option Nat →
    UserStore × List StoreOp × Bool
  | [], st, _ => (st, [], false)
  | b :: bs, st, failAt =>
    match failAt with
    | some 0 => (st, [], true)
    | _ =>
      let (st1, ops1) := syncBatch st b
      let (st2, ops2, raised) := syncIO bs st1 (failAt.map (fun n => n - 1))
      (st2, ops1 ++ ops2, raised)

/-- One iteration of the commit loop of `UserCache.sync`: the key is
discarded from the dirty set when it is no longer cached, or when the live
record's `__dict__` still equals the deep-copied snapshot record. -/
def syncClearStep (acc : UState) (kv : Val × CachedUser) : UState :=
  match alGet acc.cache kv.1 with
  | none => { acc with dirty := sDiscard acc.dirty kv.1 }
  | some cur =>
    if cur = kv.2 then { acc with dirty := sDiscard acc.dirty kv.1 } else acc

/-- The re-locked commit phase of `UserCache.sync` (lines 285-292): the
value-equality recheck applied to every snapshot entry. -/
def syncClear (payloads : List (Val × CachedUser)) (s : UState) : UState :=
  payloads.foldl syncClearStep s

/-- `UserCache.sync`: early return on an empty dirty set or an empty
payload dict; otherwise snapshot, unlocked batched I/O, and — only when no
exception fired — the re-checked clear phase. -/
def sync (s : UState) (st : UserStore) (batchSize : Nat) (failAt : Option Nat) :
    UState × UserStore × List StoreOp :=
  if s.dirty = [] then (s, st, [])
  else
    let payloads := syncSnapshot s
    if payloads = [] then (s, st, [])
    else
      let (st1, ops, raised) := syncIO (chunkList batchSize payloads) st failAt
      if raised then (s, st1, ops) else (syncClear payloads s, st1, ops)

end UserCache

/-! ## nicks.py: `_CachedNick`, `NickRepository`, `NickCache` -/

/-- The `_CachedNick` dataclass of `nicks.py`. -/
structure CachedNick where
  id : Val
  tg_user_id : Val
  tg_chat_id : Val
  nick : Val
  created_by_tg_id : Val
  created_at : Val
deriving DecidableEq, Repr

/-- Attribute names of `_CachedNick`. -/
def nickFieldNames : List String :=
  ["id", "tg_user_id", "tg_chat_id", "nick", "created_by_tg_id", "created_at"]

/-- Python `getattr(obj, f, None)` on a `_CachedNick`. -/
def CachedNick.getattr (u : CachedNick) (f : String) : Val :=
  if f = "id" then u.id
  else if f = "tg_user_id" then u.tg_user_id
  else if f = "tg_chat_id" then u.tg_chat_id
  else if f = "nick" then u.nick
  else if f = "created_by_tg_id" then u.created_by_tg_id
  else if f = "created_at" then u.created_at
  else Val.vNone

/-- A row of the `nicks` table: surrogate id, foreign keys into `users`
and `chats`, and payload columns. -/
structure NickRow where
  id : Nat
  user_id : Nat
  chat_id : Nat
  nick : Val
  created_by_id : Val
  created_at : Val
deriving DecidableEq, Repr

/-- The slice of the database the nick manager touches: the `users` and
`chats` tables reduced to `(surrogate id, telegram id)` pairs, the `nicks`
table and the three autoincrement counters. -/
structure NickStore where
  users : List (Nat × Val)
  chats : List (Nat × Val)
  nicks : List NickRow
  nextUserId : Nat
  nextChatId : Nat
  nextNickId : Nat
deriving DecidableEq, Repr

/-- `get_or_create` on a `(id, telegram id)` reference table. -/
def ensureRef (tbl : List (Nat × Val)) (next : Nat) (tg : Val) :
    (Nat × Val) × List (Nat × Val) × Nat :=
  match tbl.find? (fun u => decide (u.2 = tg)) with
  | some u => (u, tbl, next)
  | none => ((next, tg), tbl ++ [(next, tg)], next + 1)

/-- `filter(tg=...).first()` on a reference table. -/
def firstRefByTg (l : List (Nat × Val)) (tg : Val) : Option (Nat × Val) :=
  l.find? (fun u => decide (u.2 = tg))

/-- Last-wins dict built from a reference table (`{u.tg_user_id: u.id}`). -/
def lastRefByTg (l : List (Nat × Val)) (tg : Val) : Option (Nat × Val) :=
  l.foldl (fun acc u => if u.2 = tg then some u else acc) none

/-- Reverse direction of the prefetch join: the telegram id of the
reference row with the given surrogate id. -/
def refTgById (l : List (Nat × Val)) (id : Nat) : Option Val :=
  (l.find? (fun u => decide (u.1 = id))).map (·.2)

/-- State owned by `NickCache`: the cache dict and the dirty set, keyed by
`(tg_user_id, tg_chat_id)`. -/
structure NState where
  cache : List ((Val × Val) × CachedNick)
  dirty : List (Val × Val)
deriving DecidableEq, Repr

/-- The state a freshly constructed `NickManager` hands to its cache. -/
def freshN : NState := { cache := [], dirty := [] }

namespace NickCache

/-- `NickRepository.ensure_record`: lazily create the parent user and chat
rows, resolve the creator, then get-or-create the nick row, overwriting
`nick`/`created_by_id` when the row already existed. -/
def ensureRecord (st : NickStore) (tgu tgc nick cb : Val) : NickRow × Bool × NickStore :=
  let (u, users1, nu1) := ensureRef st.users st.nextUserId tgu
  let (c, chats1, nc1) := ensureRef st.chats st.nextChatId tgc
  let (cbId, users2, nu2) :=
    if cb.truthy then
      let (cu, us2, nn) := ensureRef users1 nu1 cb
      (Val.vInt (Int.ofNat cu.1), us2, nn)
    else (Val.vNone, users1, nu1)
  match st.nicks.find? (fun n => decide (n.user_id = u.1 ∧ n.chat_id = c.1)) with
  | some obj =>
    let obj2 := { obj with nick := nick, created_by_id := cbId }
    (obj2, false,
     { users := users2
       chats := chats1
       nicks := st.nicks.map (fun n => if n.id = obj.id then obj2 else n)
       nextUserId := nu2
       nextChatId := nc1
       nextNickId := st.nextNickId })
  | none =>
    let obj : NickRow :=
      { id := st.nextNickId, user_id := u.1, chat_id := c.1, nick := nick,
        created_by_id := cbId, created_at := Val.vNone }
    (obj, true,
     { users := users2
       chats := chats1
       nicks := st.nicks ++ [obj]
       nextUserId := nu2
       nextChatId := nc1
       nextNickId := st.nextNickId + 1 })

/-- `NickCache.get(key)` (no field selector): a pure dict read. -/
def getRecord (s : NState) (k : Val × Val) : Option CachedNick :=
  alGet s.cache k

/-- `NickCache.get(key, "f")`. -/
def getField (s : NState) (st : NickStore) (k : Val × Val) (f : String) :
    Val × NState × NickStore × List StoreOp :=
  (match alGet s.cache k with
   | none => Val.vNone
   | some o => o.getattr f, s, st, [])

/-- `NickCache.get(key, (f1, ..., fn))`. -/
def getFields (s : NState) (st : NickStore) (k : Val × Val) (fs : List String) :
    List Val × NState × NickStore × List StoreOp :=
  (match alGet s.cache k with
   | none => fs.map (fun _ => Val.vNone)
   | some o => fs.map o.getattr, s, st, [])

/-- `NickCache.add_nick`: when the key is cached, overwrite `nick` and
`created_by_tg_id` in place and mark dirty (no I/O); otherwise run the
repository's `ensure_record` and insert the resulting record (not dirty —
it was just persisted). -/
def addNick (s : NState) (st : NickStore) (tgu tgc nick cb : Val) :
    NState × NickStore × List StoreOp :=
  let key := (tgu, tgc)
  match alGet s.cache key with
  | some r =>
    ({ s with
        cache := alInsert s.cache key { r with nick := nick, created_by_tg_id := cb }
        dirty := sAdd s.dirty key }, st, [])
  | none =>
    let (row, _, st1) := ensureRecord st tgu tgc nick cb
    ({ s with
        cache := alInsert s.cache key
          { id := Val.vInt (Int.ofNat row.id), tg_user_id := tgu, tg_chat_id := tgc,
            nick := row.nick, created_by_tg_id := cb, created_at := row.created_at } },
     st1, [StoreOp.nickEnsure key])

/-- The locked phase of `remove_nick`: evict from cache and dirty set,
remembering the removed record for the return value. -/
def removeLockPhase (s : NState) (k : Val × Val) : NState × Option CachedNick :=
  match alGet s.cache k with
  | some n => ({ cache := alErase s.cache k, dirty := sDiscard s.dirty k }, some n)
  | none => (s, none)

/-- `NickRepository.delete_record`: resolve user and chat by telegram id
(`.first()`), and only if both exist delete the matching nick rows. -/
def deleteRecord (st : NickStore) (tgu tgc : Val) : NickStore :=
  match firstRefByTg st.users tgu, firstRefByTg st.chats tgc with
  | some u, some c =>
    { st with nicks := st.nicks.filter (fun n => decide (¬ (n.user_id = u.1 ∧ n.chat_id = c.1))) }
  | _, _ => st

/-- `NickCache.remove_nick`: locked eviction first, then the store delete
outside the lock; returns the evicted record. -/
def removeNick (s : NState) (st : NickStore) (tgu tgc : Val) :
    NState × NickStore × List StoreOp × Option CachedNick :=
  let (s1, res) := removeLockPhase s (tgu, tgc)
  (s1, deleteRecord st tgu tgc, [StoreOp.nickDelete (tgu, tgc)], res)

/-- The snapshot taken under the lock at the start of `NickCache.sync`. -/
def syncSnapshot (s : NState) : List ((Val × Val) × CachedNick) :=
  s.dirty.filterMap (fun k => (alGet s.cache k).map (fun c => (k, c)))

/-- The `created_by_id` resolution inside `NickCache.sync`:
`User.filter(tg_user_id=...).first()` when the cached creator id is truthy. -/
def resolveCreatedBy (st : NickStore) (cb : Val) : Val :=
  if cb.truthy then
    match firstRefByTg st.users cb with
    | some u => Val.vInt (Int.ofNat u.1)
    | none => Val.vNone
  else Val.vNone

/-- The partition loop of `NickCache.sync`: update existing rows
(overwriting `nick` and the re-resolved `created_by_id` when either
differs) and queue creations, skipping payloads whose parent user or chat
row is missing. -/
def nickProcess (st : NickStore)
    (userMap chatMap : Val → Option Nat)
    (exKeyed : List ((Val × Val) × NickRow))
    (items : List ((Val × Val) × CachedNick)) :
    List NickRow × List (Nat × Nat × Val × Val) :=
  items.foldl
    (fun acc item =>
      let (k, cached) := item
      match (exKeyed.foldl (fun a kv => if kv.1 = k then some kv.2 else a) none : Option NickRow) with
      | some row =>
        let cbId := resolveCreatedBy st cached.created_by_tg_id
        if row.nick = cached.nick ∧ row.created_by_id = cbId then acc
        else (acc.1 ++ [{ row with nick := cached.nick, created_by_id := cbId }], acc.2)
      | none =>
        match userMap k.1, chatMap k.2 with
        | some uid, some cid =>
          let cbId := resolveCreatedBy st cached.created_by_tg_id
          (acc.1, acc.2 ++ [(uid, cid, cached.nick, cbId)])
        | _, _ => acc)
    ([], [])

/-- `Nick.bulk_create`: append the queued rows, assigning autoincrement
ids. -/
def nickBulkCreate (st : NickStore) (cs : List (Nat × Nat × Val × Val)) : NickStore :=
  cs.foldl
    (fun acc c =>
      { acc with
          nicks := acc.nicks ++
            [{ id := acc.nextNickId, user_id := c.1, chat_id := c.2.1,
               nick := c.2.2.1, created_by_id := c.2.2.2, created_at := Val.vNone }]
          nextNickId := acc.nextNickId + 1 })
    st

/-- The unlocked I/O phase of `NickCache.sync`: bulk-resolve parent ids,
probe for existing rows through the prefetch join, partition, and commit
both bulk operations in one transaction.  `fail = true` models an
exception anywhere in this phase: the transaction leaves the store
unchanged and the `except` branch reports it. -/
def syncIO (payloads : List ((Val × Val) × CachedNick)) (st : NickStore) (fail : Bool) :
    NickStore × List StoreOp × Bool :=
  if fail then (st, [], true)
  else
    let tgUs := payloads.map (fun kv => kv.1.1)
    let tgCs := payloads.map (fun kv => kv.1.2)
    let users := st.users.filter (fun u => decide (u.2 ∈ tgUs))
    let chats := st.chats.filter (fun c => decide (c.2 ∈ tgCs))
    let userMap := fun tg => (lastRefByTg users tg).map (·.1)
    let chatMap := fun tg => (lastRefByTg chats tg).map (·.1)
    let userDbIds := payloads.filterMap
      (fun kv => if (userMap kv.1.1).isSome && (chatMap kv.1.2).isSome then userMap kv.1.1 else none)
    let existingNicks := st.nicks.filter (fun n => decide (n.user_id ∈ userDbIds))
    let exKeyed := existingNicks.filterMap
      (fun n =>
        match refTgById st.users n.user_id, refTgById st.chats n.chat_id with
        | some ut, some ct => some ((ut, ct), n)
        | _, _ => none)
    let (toUpdate, toCreate) := nickProcess st userMap chatMap exKeyed payloads
    let st1 :=
      if toUpdate = [] then st
      else { st with nicks := st.nicks.map (fun n =>
        match toUpdate.find? (fun u2 => decide (u2.id = n.id)) with
        | some u2 => u2
        | none => n) }
    let st2 := if toCreate = [] then st1 else nickBulkCreate st1 toCreate
    (st2,
     [StoreOp.nickReads] ++
       (if toUpdate = [] then [] else [StoreOp.bulkUpdate toUpdate.length]) ++
       (if toCreate = [] then ([] : List StoreOp) else [StoreOp.bulkCreate toCreate.length]),
     false)

/-- The re-locked commit phase of `NickCache.sync` (lines 273-275 of
`nicks.py`): every snapshot key is discarded from the dirty set,
unconditionally — there is no value-equality recheck here. -/
def syncClear (payloads : List ((Val × Val) × CachedNick)) (s : NState) : NState :=
  payloads.foldl (fun acc kv => { acc with dirty := sDiscard acc.dirty kv.1 }) s

/-- `NickCache.sync`: early return on an empty dirty set or empty payloads;
otherwise snapshot, unlocked I/O, and — when no exception fired — the
unconditional clear phase. -/
def sync (s : NState) (st : NickStore) (fail : Bool) :
    NState × NickStore × List StoreOp :=
  if s.dirty = [] then (s, st, [])
  else
    let payloads := syncSnapshot s
    if payloads = [] then (s, st, [])
    else
      let (st1, ops, raised) := syncIO payloads st fail
      if raised then (s, st1, ops) else (syncClear payloads s, st1, ops)

end NickCache

/-! ## user_roles.py: `_CachedUserRole`, `UserRoleRepository`, `UserRoleCache` -/

/-- The `_CachedUserRole` dataclass of `user_roles.py`. -/
structure CachedRole where
  id : Val
  tg_user_id : Val
  user_id : Val
  tg_chat_id : Val
  chat_id : Val
  level : Val
  assigned_by_tg : Val
  assigned_by_id : Val
  assigned_at : Val
deriving DecidableEq, Repr

/-- A row of the `user_roles` table; the foreign keys hold the dynamic
values the manager assigns to them. -/
structure RoleRow where
  id : Nat
  user_id : Val
  chat_id : Val
  level : Val
  assigned_by_id : Val
  assigned_at : Val
deriving DecidableEq, Repr

/-- The slice of the database the role manager touches. -/
structure RoleStore where
  users : List (Nat × Val)
  chats : List (Nat × Val)
  roles : List RoleRow
  nextUserId : Nat
  nextChatId : Nat
  nextRoleId : Nat
deriving DecidableEq, Repr

/-- Prefetch join by a dynamic foreign-key value: the telegram id of the
reference row whose surrogate id equals it. -/
def refTgByIdV (l : List (Nat × Val)) (v : Val) : Option Val :=
  (l.find? (fun u => decide (Val.vInt (Int.ofNat u.1) = v))).map (·.2)

/-- State owned by `UserRoleCache`. -/
structure RState where
  cache : List ((Val × Val) × CachedRole)
  dirty : List (Val × Val)
deriving DecidableEq, Repr

/-- The state a freshly constructed `UserRoleManager` hands to its cache. -/
def freshR : RState := { cache := [], dirty := [] }

namespace RoleCache

/-- `UserRoleRepository.ensure_record`: lazily create the parent user and
chat rows, then get-or-create the role row with the caller's defaults
(`level` defaults to the `user` role at the store level). -/
def ensureRecord (st : RoleStore) (tgu tgc : Val) (defaults : List (String × Val)) :
    RoleRow × Bool × RoleStore :=
  let (u, users1, nu1) := ensureRef st.users st.nextUserId tgu
  let (c, chats1, nc1) := ensureRef st.chats st.nextChatId tgc
  let uv := Val.vInt (Int.ofNat u.1)
  let cv := Val.vInt (Int.ofNat c.1)
  match st.roles.find? (fun r => decide (r.user_id = uv ∧ r.chat_id = cv)) with
  | some r =>
    (r, false,
     { st with users := users1, chats := chats1, nextUserId := nu1, nextChatId := nc1 })
  | none =>
    let base : RoleRow :=
      { id := st.nextRoleId, user_id := uv, chat_id := cv, level := Val.vStr "user",
        assigned_by_id := Val.vNone, assigned_at := Val.vNone }
    let r := defaults.foldl
      (fun acc p =>
        if p.1 = "level" then { acc with level := p.2 }
        else if p.1 = "assigned_by_id" then { acc with assigned_by_id := p.2 }
        else acc)
      base
    (r, true,
     { users := users1
       chats := chats1
       roles := st.roles ++ [r]
       nextUserId := nu1
       nextChatId := nc1
       nextRoleId := st.nextRoleId + 1 })

/-- `UserRoleCache._ensure_cached`: early return when cached; otherwise
`ensure_record`, re-read the parent rows (`User.get` / `Chat.get` raise on
a dangling key, leaving the cache untouched), resolve the assigner's
telegram id, and insert the record. -/
def ensureCached (s : RState) (st : RoleStore) (tgu tgc : Val)
    (initial : List (String × Val)) : RState × RoleStore × Bool :=
  let key := (tgu, tgc)
  if (alGet s.cache key).isSome then (s, st, false)
  else
    let (model, created, st1) := ensureRecord st tgu tgc initial
    match refTgByIdV st1.users model.user_id, refTgByIdV st1.chats model.chat_id with
    | some ut, some ct =>
      let abTg :=
        if model.assigned_by_id.truthy then
          match (st1.users.find?
              (fun x => decide (Val.vInt (Int.ofNat x.1) = model.assigned_by_id))) with
          | some ab => ab.2
          | none => Val.vNone
        else Val.vNone
      let rec0 : CachedRole :=
        { id := Val.vInt (Int.ofNat model.id)
          tg_user_id := ut
          user_id := model.user_id
          tg_chat_id := ct
          chat_id := model.chat_id
          level := model.level
          assigned_by_tg := abTg
          assigned_by_id := model.assigned_by_id
          assigned_at := model.assigned_at }
      ({ s with cache := alInsert s.cache key rec0 }, st1, created)
    | _, _ => (s, st1, created)

/-- `UserRoleCache.get(key, "f")` reduced to the fields the claims touch is
the same locked dict read as the other managers; modelled as the record
read. -/
def getRecord (s : RState) (k : Val × Val) : Option CachedRole :=
  alGet s.cache k

/-- The body of `UserRoleCache.add_role` after `_ensure_cached`: return
early when the level already matches, otherwise overwrite the level in
place; only when an assigner is given (`is not None`) resolve it, update
the assigner fields and mark the key dirty. -/
def addRoleTail (s1 : RState) (st1 : RoleStore) (tgu tgc level abTg : Val) :
    RState × RoleStore :=
  let key := (tgu, tgc)
  match alGet s1.cache key with
  | none => (s1, st1)
  | some r =>
    if r.level = level then (s1, st1)
    else
      let r1 := { r with level := level }
      let s2 := { s1 with cache := alInsert s1.cache key r1 }
      if abTg = Val.vNone then (s2, st1)
      else
        let (ab, users2, nu2) := ensureRef st1.users st1.nextUserId abTg
        let st2 := { st1 with users := users2, nextUserId := nu2 }
        let r2 := { r1 with
          assigned_by_tg := ab.2
          assigned_by_id := Val.vInt (Int.ofNat ab.1) }
        ({ s2 with
            cache := alInsert s2.cache key r2
            dirty := sAdd s2.dirty key }, st2)

/-- `UserRoleCache.add_role`: ensure cached, then the in-place update. -/
def addRole (s : RState) (st : RoleStore) (tgu tgc level abTg : Val) :
    RState × RoleStore :=
  let (s1, st1, _) := ensureCached s st tgu tgc
    [("level", level), ("assigned_by_id", Val.vNone)]
  addRoleTail s1 st1 tgu tgc level abTg

/-- `UserRoleRepository.delete_record`: resolve both parents by telegram
id; delete the matching role rows only when both exist. -/
def deleteRecord (st : RoleStore) (tgu tgc : Val) : RoleStore :=
  match firstRefByTg st.users tgu, firstRefByTg st.chats tgc with
  | some u, some c =>
    { st with roles := st.roles.filter (fun r =>
        decide (¬ (r.user_id = Val.vInt (Int.ofNat u.1) ∧ r.chat_id = Val.vInt (Int.ofNat c.1)))) }
  | _, _ => st

/-- `UserRoleCache.remove_role`: locked eviction from cache and dirty set,
then the store delete; returns the removed level. -/
def removeRole (s : RState) (st : RoleStore) (tgu tgc : Val) :
    RState × RoleStore × Option Val :=
  let key := (tgu, tgc)
  match alGet s.cache key with
  | some r =>
    ({ cache := alErase s.cache key, dirty := sDiscard s.dirty key },
     deleteRecord st tgu tgc, some r.level)
  | none => (s, deleteRecord st tgu tgc, none)

/-- One row of the role manager's cold-start load: join it with its
parents and insert it under the `(user tg, chat tg)` key, skipping rows
whose parents are missing. -/
def bootStep (st : RoleStore) (acc : RState) (row : RoleRow) : RState :=
  match refTgByIdV st.users row.user_id, refTgByIdV st.chats row.chat_id with
  | some ut, some ct =>
    let abTg :=
      match st.users.find?
          (fun x => decide (Val.vInt (Int.ofNat x.1) = row.assigned_by_id)) with
      | some ab => ab.2
      | none => Val.vNone
    let rec0 : CachedRole :=
      { id := Val.vInt (Int.ofNat row.id)
        tg_user_id := ut
        user_id := row.user_id
        tg_chat_id := ct
        chat_id := row.chat_id
        level := row.level
        assigned_by_tg := abTg
        assigned_by_id := row.assigned_by_id
        assigned_at := row.assigned_at }
    { acc with cache := alInsert acc.cache (ut, ct) rec0 }
  | _, _ => acc

/-- The cold-start load of `user_roles.py`. -/
def bootLoad (s : RState) (st : RoleStore) : RState :=
  st.roles.foldl (bootStep st) s

/-- The snapshot taken under the lock at the start of `UserRoleCache.sync`. -/
def syncSnapshot (s : RState) : List ((Val × Val) × CachedRole) :=
  s.dirty.filterMap (fun k => (alGet s.cache k).map (fun c => (k, c)))

/-- The unlocked I/O phase of `UserRoleCache.sync`: probe through the
user-join, partition into updates, creations and payloads skipped for a
missing parent id, and commit in one transaction.  Returns the skipped
keys, which the commit phase must also skip. -/
def syncIO (payloads : List ((Val × Val) × CachedRole)) (st : RoleStore) (fail : Bool) :
    RoleStore × List (Val × Val) × Bool :=
  if fail then (st, [], true)
  else
    let tgUsers := payloads.map (fun kv => kv.1.1)
    let exKeyed : List ((Val × Val) × RoleRow) := st.roles.filterMap
      (fun row =>
        match refTgByIdV st.users row.user_id, refTgByIdV st.chats row.chat_id with
        | some ut, some ct => if decide (ut ∈ tgUsers) then some ((ut, ct), row) else none
        | _, _ => none)
    let res := payloads.foldl
      (fun (acc : List RoleRow × List (Val × Val × Val × Val) × List (Val × Val)) item =>
        let (k, cached0) := item
        match (exKeyed.foldl (fun a kv => if kv.1 = k then some kv.2 else a) none :
            Option RoleRow) with
        | some row =>
          if row.level = cached0.level ∧ row.assigned_by_id = cached0.assigned_by_id then acc
          else (acc.1 ++ [{ row with
              level := cached0.level
              assigned_by_id := cached0.assigned_by_id }], acc.2.1, acc.2.2)
        | none =>
          let uid :=
            if cached0.user_id = Val.vNone then
              match firstRefByTg st.users cached0.tg_user_id with
              | some u => Val.vInt (Int.ofNat u.1)
              | none => Val.vNone
            else cached0.user_id
          let cid :=
            if cached0.chat_id = Val.vNone then
              match firstRefByTg st.chats cached0.tg_chat_id with
              | some c => Val.vInt (Int.ofNat c.1)
              | none => Val.vNone
            else cached0.chat_id
          if uid = Val.vNone ∨ cid = Val.vNone then (acc.1, acc.2.1, acc.2.2 ++ [k])
          else (acc.1, acc.2.1 ++ [(uid, cid, cached0.level, cached0.assigned_by_id)], acc.2.2))
      ([], [], [])
    let (toUpdate, toCreate, skipped) := res
    let st1 :=
      if toUpdate = [] then st
      else { st with roles := st.roles.map (fun r =>
        match toUpdate.find? (fun u2 => decide (u2.id = r.id)) with
        | some u2 => u2
        | none => r) }
    let st2 :=
      if toCreate = [] then st1
      else toCreate.foldl
        (fun acc c =>
          { acc with
              roles := acc.roles ++
                [{ id := acc.nextRoleId, user_id := c.1, chat_id := c.2.1,
                   level := c.2.2.1, assigned_by_id := c.2.2.2, assigned_at := Val.vNone }]
              nextRoleId := acc.nextRoleId + 1 })
        st1
    (st2, skipped, false)

/-- One entry of the commit phase of `UserRoleCache.sync`: skip the keys
with a missing parent, clear removed keys, and clear the rest only when
the live `level`/`assigned_by_id` pair still equals the snapshot pair. -/
def syncClearStep (skipped : List (Val × Val)) (acc : RState)
    (kv : (Val × Val) × CachedRole) : RState :=
  if kv.1 ∈ skipped then acc
  else
    match alGet acc.cache kv.1 with
    | none => { acc with dirty := sDiscard acc.dirty kv.1 }
    | some cur =>
      if cur.level = kv.2.level ∧ cur.assigned_by_id = kv.2.assigned_by_id then
        { acc with dirty := sDiscard acc.dirty kv.1 }
      else acc

/-- The re-locked commit phase of `UserRoleCache.sync`. -/
def syncClear (payloads : List ((Val × Val) × CachedRole)) (skipped : List (Val × Val))
    (s : RState) : RState :=
  payloads.foldl (syncClearStep skipped) s

/-- `UserRoleCache.sync`. -/
def sync (s : RState) (st : RoleStore) (fail : Bool) : RState × RoleStore :=
  if s.dirty = [] then (s, st)
  else
    let payloads := syncSnapshot s
    if payloads = [] then (s, st)
    else
      let (st1, skipped, raised) := syncIO payloads st fail
      if raised then (s, st1) else (syncClear payloads skipped s, st1)

end RoleCache

/-! ## Object identity: the heap view of `get`

The value-level model above treats `copy.deepcopy` as the identity, which
is sound for every claim about values.  The reference-leak claim is about
object identity, so here the cache dict maps keys to heap addresses and
records live on a heap, exactly as Python's object model has it. -/

/-- A heap of `_CachedUser` objects together with the cache dict (key to
address) and the dirty set of `users.py`. -/
structure UHeapState where
  heapNext : Nat
  heap : List (Nat × CachedUser)
  cache : List (Val × Nat)
  dirty : List Val
deriving DecidableEq, Repr

namespace UHeap

/-- `UserCache.get(key)` with no field selector, at the object level:
`obj = self._cache.get(cache_key)` then `return obj` — the address stored
in the dict is returned as-is, with no copy in between. -/
def getRecordAddr (s : UHeapState) (k : Val) : Option Nat :=
  alGet s.cache k

/-- `copy.deepcopy(obj)` at the object level: allocate a fresh address
holding an equal record (this is what the read paths that do copy, such as
`get_by_username`, apply before returning). -/
def deepcopyAt (s : UHeapState) (a : Nat) : UHeapState × Option Nat :=
  match alGet s.heap a with
  | none => (s, none)
  | some o =>
    ({ s with heapNext := s.heapNext + 1, heap := s.heap ++ [(s.heapNext, o)] },
     some s.heapNext)

/-- A caller-side attribute assignment `obj.f = v` through a returned
reference: it updates the object at that address on the heap and touches
neither the cache dict nor the dirty set. -/
def setattrAt (s : UHeapState) (a : Nat) (f : String) (v : Val) : UHeapState :=
  { s with heap := s.heap.map (fun p => if p.1 = a then (p.1, p.2.setattr f v) else p) }

/-- The record a reader observes through the cache for key `k`. -/
def viewRecord (s : UHeapState) (k : Val) : Option CachedUser :=
  match alGet s.cache k with
  | none => none
  | some a => alGet s.heap a

end UHeap

/-! ## Invariants and operation alphabets -/

/-- The dirty-set containment invariant of the spec for the user manager:
every dirty key has a cached record. -/
def UInv (s : UState) : Prop := ∀ k ∈ s.dirty, (alGet s.cache k).isSome

/-- The dirty-set containment invariant for the nick manager. -/
def NInv (s : NState) : Prop := ∀ k ∈ s.dirty, (alGet s.cache k).isSome

/-- Key-field integrity from the spec's data model ("once a record is
inserted into the cache, its key fields never change"): every cached
record's `tg_user_id` equals its cache key. -/
def KeyIntegrity (s : UState) : Prop :=
  ∀ k c, alGet s.cache k = some c → c.tg_user_id = k

/-- The pair of store-identity columns of a row, used to state that the
in-memory update pass of `sync` rewrites only payload columns. -/
def idtg (r : UserRow) : Nat × Val := (r.id, r.tg_user_id)

/-- The dirty-set containment invariant for the role manager. -/
def RInv (s : RState) : Prop := ∀ k ∈ s.dirty, (alGet s.cache k).isSome

/-- A row for the composite key exists in the nick store, through the
foreign-key join the repository uses. -/
def nickStoreHasKey (st : NickStore) (k : Val × Val) : Prop :=
  ∃ n ∈ st.nicks, ∃ u ∈ st.users, ∃ c ∈ st.chats,
    n.user_id = u.1 ∧ n.chat_id = c.1 ∧ u.2 = k.1 ∧ c.2 = k.2

/-- The public operations of the user manager, as an alphabet for
reachability statements. -/
inductive UOp where
  | load
  | readRec (k : Val)
  | readF (k : Val) (f : String)
  | ensure (k : Val) (d : List (String × Val))
  | editRec (k : Val) (fs : List (String × Val))
  | removeRec (k : Val)
  | syncAll (b : Nat) (failAt : Option Nat)
  | incr (k : Val)

/-- One step of the user manager: apply an operation to the cache state
and the store (a read leaves both unchanged; an increment on a non-integer
count raises in Python before mutating, hence the identity on `none`). -/
def stepU (p : UState × UserStore) (op : UOp) : UState × UserStore :=
  match op with
  | .load => let r := UserCache.bootLoad p.1 p.2; (r.1, r.2.1)
  | .readRec _ => p
  | .readF _ _ => p
  | .ensure k d => let r := UserCache.ensureCached p.1 p.2 k d; (r.1, r.2.1)
  | .editRec k fs => let r := UserCache.edit p.1 p.2 k fs; (r.1, r.2.1)
  | .removeRec k => let r := UserCache.remove p.1 p.2 k; (r.1, r.2.1)
  | .syncAll b f => let r := UserCache.sync p.1 p.2 b f; (r.1, r.2.1)
  | .incr k =>
    match UserCache.incrementMessagesCount p.1 k with
    | some (s2, _) => (s2, p.2)
    | none => p

/-- The public operations of the role manager. -/
inductive ROp where
  | load
  | readRec (k : Val × Val)
  | ensure (tgu tgc : Val) (d : List (String × Val))
  | addRole (tgu tgc level abTg : Val)
  | removeRole (tgu tgc : Val)
  | syncRole (fail : Bool)

/-- One step of the role manager. -/
def stepR (p : RState × RoleStore) (op : ROp) : RState × RoleStore :=
  match op with
  | .load => (RoleCache.bootLoad p.1 p.2, p.2)
  | .readRec _ => p
  | .ensure tgu tgc d => let r := RoleCache.ensureCached p.1 p.2 tgu tgc d; (r.1, r.2.1)
  | .addRole tgu tgc level abTg => RoleCache.addRole p.1 p.2 tgu tgc level abTg
  | .removeRole tgu tgc => let r := RoleCache.removeRole p.1 p.2 tgu tgc; (r.1, r.2.1)
  | .syncRole fail => RoleCache.sync p.1 p.2 fail

/-! ## Lemmas about the user cache operations -/

namespace UserCache

theorem getattr_setattr_self (c : CachedUser) (f : String) (v : Val)
    (h : f ∈ userFieldNames) : (c.setattr f v).getattr f = v := by
  simp only [userFieldNames, List.mem_cons, List.not_mem_nil, or_false] at h
  rcases h with rfl | rfl | rfl | rfl | rfl | rfl | rfl | rfl | rfl | rfl | rfl | rfl
  all_goals rfl

theorem getattr_of_not_mem (c : CachedUser) (f : String) (h : f ∉ userFieldNames) :
    c.getattr f = Val.vNone := by
  simp only [userFieldNames, List.mem_cons, List.not_mem_nil, or_false, not_or] at h
  obtain ⟨h1, h2, h3, h4, h5, h6, h7, h8, h9, h10, h11, h12⟩ := h
  simp [CachedUser.getattr, h1, h2, h3, h4, h5, h6, h7, h8, h9, h10, h11, h12]

theorem ensureCached_cache_isSome (s : UState) (st : UserStore) (k : Val)
    (d : List (String × Val)) : (alGet (ensureCached s st k d).1.cache k).isSome := by
  by_cases h : (alGet s.cache k).isSome
  · simp [ensureCached, h]
  · simp [ensureCached, h]

theorem edit_state (s : UState) (st : UserStore) (k : Val) (fs : List (String × Val))
    (c : CachedUser) (hc : alGet (ensureCached s st k fs).1.cache k = some c) :
    (edit s st k fs).1 =
      { (ensureCached s st k fs).1 with
          cache := alInsert (ensureCached s st k fs).1.cache k (editFields c fs)
          dirty := sAdd (ensureCached s st k fs).1.dirty k } := by
  simp [edit, hc]

theorem edit_store (s : UState) (st : UserStore) (k : Val) (fs : List (String × Val)) :
    (edit s st k fs).2.1 = (ensureCached s st k fs).2.1 := by
  rcases h : alGet (ensureCached s st k fs).1.cache k with _ | c <;> simp [edit, h]

theorem editFields_single (c : CachedUser) (f : String) (v : Val)
    (h : f ∈ userFieldNames) : editFields c [(f, v)] = c.setattr f v := by
  simp [editFields, h]

end UserCache

/-- C8: No-op sync.  Whenever the dirty set is empty, `sync()` returns
immediately: the state, the store and the trace show zero store calls and
no change, for `UserCache.sync` and `NickCache.sync` alike. -/
theorem claim_C8 :
    (∀ (s : UState) (st : UserStore) (b : Nat) (failAt : Option Nat),
        s.dirty = [] → UserCache.sync s st b failAt = (s, st, [])) ∧
    (∀ (s : NState) (st : NickStore) (fail : Bool),
        s.dirty = [] → NickCache.sync s st fail = (s, st, [])) := by
  constructor
  · intro s st b failAt h
    simp [UserCache.sync, h]
  · intro s st fail h
    simp [NickCache.sync, h]

/-- C8 witness: both components applied to concrete clean states. -/
theorem claim_C8_witness :
    (freshU.dirty = [] ∧
      UserCache.sync freshU { rows := [], nextId := 1 } 1000 none =
        (freshU, { rows := [], nextId := 1 }, [])) ∧
    (freshN.dirty = [] ∧
      NickCache.sync freshN
          { users := [], chats := [], nicks := [], nextUserId := 1, nextChatId := 1, nextNickId := 1 }
          false =
        (freshN,
          { users := [], chats := [], nicks := [], nextUserId := 1, nextChatId := 1, nextNickId := 1 },
          [])) :=
  ⟨⟨rfl, claim_C8.1 freshU { rows := [], nextId := 1 } 1000 none rfl⟩,
   ⟨rfl, claim_C8.2 freshN
     { users := [], chats := [], nicks := [], nextUserId := 1, nextChatId := 1, nextNickId := 1 }
     false rfl⟩⟩

/-- C9: `increment_messages_count` returns `False` and changes nothing for
a key that is not cached (it never creates a record); for a cached key
with an integer count it adds exactly 1, marks the key dirty and returns
`True`. -/
theorem claim_C9 :
    (∀ (s : UState) (k : Val), alGet s.cache k = none →
        UserCache.incrementMessagesCount s k = some (s, false)) ∧
    (∀ (s : UState) (k : Val) (c : CachedUser) (i : Int),
        alGet s.cache k = some c → c.messages_count = Val.vInt i →
        UserCache.incrementMessagesCount s k =
          some (⟨alInsert s.cache k { c with messages_count := Val.vInt (i + 1) },
            s.dbIdIndex, sAdd s.dirty k⟩, true)) := by
  constructor
  · intro s k h
    simp [UserCache.incrementMessagesCount, h]
  · intro s k c i h hm
    simp [UserCache.incrementMessagesCount, h, hm]

/-- C9 witness: both branches demonstrated on a concrete state. -/
theorem claim_C9_witness :
    (alGet (freshU.cache) (Val.vInt 9) = none ∧
      UserCache.incrementMessagesCount freshU (Val.vInt 9) = some (freshU, false)) ∧
    (let c : CachedUser :=
      { id := Val.vNone, tg_user_id := Val.vInt 5, username := Val.vNone,
        first_name := Val.vNone, last_name := Val.vNone, is_bot := Val.vBool false,
        is_owner := Val.vBool false, banned_until := Val.vNone,
        messages_count := Val.vInt 3, meta := Val.vNone, created_at := Val.vNone,
        last_seen := Val.vNone }
     let s : UState := ⟨[(Val.vInt 5, c)], [], []⟩
     alGet s.cache (Val.vInt 5) = some c ∧ c.messages_count = Val.vInt 3 ∧
       UserCache.incrementMessagesCount s (Val.vInt 5) =
         some (⟨alInsert s.cache (Val.vInt 5) { c with messages_count := Val.vInt (3 + 1) },
           s.dbIdIndex, sAdd s.dirty (Val.vInt 5)⟩, true)) := by
  refine ⟨⟨rfl, claim_C9.1 freshU (Val.vInt 9) rfl⟩, rfl, rfl, ?_⟩
  exact claim_C9.2 _ (Val.vInt 5) _ 3 rfl rfl

/-- `getattr(obj, f, None)` on a `_CachedNick` falls through every branch
for an attribute name that is not a dataclass field. -/
theorem nickGetattr_of_not_mem (n : CachedNick) (f : String)
    (h : f ∉ nickFieldNames) : n.getattr f = Val.vNone := by
  simp only [nickFieldNames, List.mem_cons, List.not_mem_nil, or_false, not_or] at h
  obtain ⟨h1, h2, h3, h4, h5, h6⟩ := h
  simp [CachedNick.getattr, h1, h2, h3, h4, h5, h6]

/-- C10: totality and silence of `get`.  For an absent key, the
single-field form returns `None` and the sequence form returns a tuple of
`None`s of the same length; for a cached key, an unknown attribute name
yields `None` rather than an error.  Both `UserCache.get` and
`NickCache.get` behave this way. -/
theorem claim_C10 :
    (∀ (s : UState) (st : UserStore) (k : Val) (f : String),
        alGet s.cache k = none → (UserCache.getField s st k f).1 = Val.vNone) ∧
    (∀ (s : UState) (st : UserStore) (k : Val) (fs : List String),
        alGet s.cache k = none →
          (UserCache.getFields s st k fs).1 = fs.map (fun _ => Val.vNone) ∧
          (UserCache.getFields s st k fs).1.length = fs.length) ∧
    (∀ (s : UState) (st : UserStore) (k : Val) (c : CachedUser) (f : String),
        alGet s.cache k = some c → f ∉ userFieldNames →
          (UserCache.getField s st k f).1 = Val.vNone) ∧
    (∀ (s : NState) (st : NickStore) (k : Val × Val) (f : String),
        alGet s.cache k = none → (NickCache.getField s st k f).1 = Val.vNone) ∧
    (∀ (s : NState) (st : NickStore) (k : Val × Val) (fs : List String),
        alGet s.cache k = none →
          (NickCache.getFields s st k fs).1 = fs.map (fun _ => Val.vNone) ∧
          (NickCache.getFields s st k fs).1.length = fs.length) ∧
    (∀ (s : NState) (st : NickStore) (k : Val × Val) (n : CachedNick) (f : String),
        alGet s.cache k = some n → f ∉ nickFieldNames →
          (NickCache.getField s st k f).1 = Val.vNone) := by
  refine ⟨?_, ?_, ?_, ?_, ?_, ?_⟩
  · intro s st k f h
    simp [UserCache.getField, h]
  · intro s st k fs h
    simp [UserCache.getFields, h]
  · intro s st k c f hc hf
    simp [UserCache.getField, hc, UserCache.getattr_of_not_mem c f hf]
  · intro s st k f h
    simp [NickCache.getField, h]
  · intro s st k fs h
    simp [NickCache.getFields, h]
  · intro s st k n f hc hf
    simp [NickCache.getField, hc, nickGetattr_of_not_mem n f hf]

/-- C10 witness: the parts applied at concrete absent keys, a two-field
tuple and an unknown attribute name. -/
theorem claim_C10_witness :
    ((UserCache.getField freshU { rows := [], nextId := 1 } (Val.vInt 9) "username").1
        = Val.vNone) ∧
    ((UserCache.getFields freshU { rows := [], nextId := 1 } (Val.vInt 9)
        ["username", "meta"]).1 = [Val.vNone, Val.vNone]) ∧
    (let c : CachedUser :=
      { id := Val.vNone, tg_user_id := Val.vInt 5, username := Val.vNone,
        first_name := Val.vNone, last_name := Val.vNone, is_bot := Val.vBool false,
        is_owner := Val.vBool false, banned_until := Val.vNone,
        messages_count := Val.vInt 0, meta := Val.vNone, created_at := Val.vNone,
        last_seen := Val.vNone }
     (UserCache.getField ⟨[(Val.vInt 5, c)], [], []⟩ { rows := [], nextId := 1 }
        (Val.vInt 5) "no_such_attribute").1 = Val.vNone) ∧
    (let n : CachedNick :=
      { id := Val.vNone, tg_user_id := Val.vInt 1, tg_chat_id := Val.vInt 2,
        nick := Val.vStr "x", created_by_tg_id := Val.vNone, created_at := Val.vNone }
     (NickCache.getField ⟨[((Val.vInt 1, Val.vInt 2), n)], []⟩
        { users := [], chats := [], nicks := [], nextUserId := 1, nextChatId := 1, nextNickId := 1 }
        (Val.vInt 1, Val.vInt 2) "no_such_attribute").1 = Val.vNone) := by
  refine ⟨claim_C10.1 _ _ _ _ rfl, ?_, ?_, ?_⟩
  · have h := (claim_C10.2.1 freshU { rows := [], nextId := 1 } (Val.vInt 9)
      ["username", "meta"] rfl).1
    simp only [List.map] at h
    exact h
  · exact claim_C10.2.2.1 _ _ (Val.vInt 5) _ "no_such_attribute" rfl (by decide)
  · exact claim_C10.2.2.2.2.2 _ _ (Val.vInt 1, Val.vInt 2) _ "no_such_attribute"
      rfl (by decide)

/-! ## Lemmas about the commit phases of `sync` -/

theorem alGet_map_update [DecidableEq κ] (l : List (κ × β)) (a b : κ) (g : β → β) :
    alGet (l.map (fun p => if p.1 = a then (p.1, g p.2) else p)) b =
      if a = b then (alGet l b).map g else alGet l b := by
  induction l with
  | nil => by_cases h : a = b <;> simp [alGet, h]
  | cons p t ih =>
    obtain ⟨x, y⟩ := p
    simp only [List.map_cons]
    by_cases hx : x = a
    · subst hx
      simp only [if_pos rfl]
      by_cases hb : x = b
      · subst hb
        simp [alGet, ih]
      · simp [alGet, hb, ih]
    · simp only [if_neg hx]
      by_cases hb : x = b
      · subst hb
        have hab2 : ¬ a = x := fun h => hx h.symm
        simp [alGet, hab2]
      · simp [alGet, hb, ih]

namespace UserCache

theorem syncClearStep_cache (s : UState) (kv : Val × CachedUser) :
    (syncClearStep s kv).cache = s.cache := by
  rcases h : alGet s.cache kv.1 with _ | cur
  · simp [syncClearStep, h]
  · by_cases he : cur = kv.2 <;> simp [syncClearStep, h, he]

theorem mem_syncClearStep_dirty (s : UState) (kv : Val × CachedUser) (k : Val) :
    k ∈ (syncClearStep s kv).dirty ↔
      k ∈ s.dirty ∧ (k = kv.1 → ∃ cur, alGet s.cache kv.1 = some cur ∧ cur ≠ kv.2) := by
  rcases h : alGet s.cache kv.1 with _ | cur
  · have hstep : syncClearStep s kv = { s with dirty := sDiscard s.dirty kv.1 } := by
      simp [syncClearStep, h]
    rw [hstep]
    simp only [mem_sDiscard]
    constructor
    · rintro ⟨h1, h2⟩
      exact ⟨h1, fun hk => absurd hk h2⟩
    · rintro ⟨h1, h2⟩
      refine ⟨h1, fun hk => ?_⟩
      obtain ⟨cur, hcur, _⟩ := h2 hk
      exact Option.noConfusion hcur
  · by_cases he : cur = kv.2
    · have hstep : syncClearStep s kv = { s with dirty := sDiscard s.dirty kv.1 } := by
        simp [syncClearStep, h, he]
      rw [hstep]
      simp only [mem_sDiscard]
      constructor
      · rintro ⟨h1, h2⟩
        exact ⟨h1, fun hk => absurd hk h2⟩
      · rintro ⟨h1, h2⟩
        refine ⟨h1, fun hk => ?_⟩
        obtain ⟨cur2, hcur2, hne⟩ := h2 hk
        have hcc : cur = cur2 := Option.some_injective _ hcur2
        exact hne (hcc.symm.trans he)
    · have hstep : syncClearStep s kv = s := by
        simp [syncClearStep, h, he]
      rw [hstep]
      constructor
      · intro h1
        exact ⟨h1, fun _ => ⟨cur, rfl, he⟩⟩
      · exact fun h1 => h1.1

/-- The exact retention behaviour of `UserCache.sync`'s commit phase: a
key is still dirty afterwards iff it was dirty and every snapshot entry
for it disagrees with the live cached value. -/
theorem mem_syncClear_dirty (payloads : List (Val × CachedUser)) (s : UState) (k : Val) :
    k ∈ (syncClear payloads s).dirty ↔
      k ∈ s.dirty ∧ ∀ c, (k, c) ∈ payloads →
        ∃ cur, alGet s.cache k = some cur ∧ cur ≠ c := by
  induction payloads generalizing s with
  | nil => simp [syncClear]
  | cons kv rest ih =>
    obtain ⟨kv1, kv2⟩ := kv
    have hstep : syncClear ((kv1, kv2) :: rest) s = syncClear rest (syncClearStep s (kv1, kv2)) := rfl
    rw [hstep, ih, syncClearStep_cache, mem_syncClearStep_dirty]
    constructor
    · rintro ⟨⟨h1, h2⟩, h3⟩
      refine ⟨h1, fun c hc => ?_⟩
      rcases List.mem_cons.mp hc with hc | hc
      · have hk1 : k = kv1 := congrArg Prod.fst hc
        have hk2 : c = kv2 := congrArg Prod.snd hc
        obtain ⟨cur, hcur, hne⟩ := h2 hk1
        rw [← hk1] at hcur
        rw [← hk2] at hne
        exact ⟨cur, hcur, hne⟩
      · exact h3 c hc
    · rintro ⟨h1, h2⟩
      refine ⟨⟨h1, fun hk => ?_⟩, fun c hc => h2 c (List.mem_cons_of_mem _ hc)⟩
      obtain ⟨cur, hcur, hne⟩ := h2 kv2 (by rw [hk]; exact List.mem_cons_self _ _)
      rw [hk] at hcur
      exact ⟨cur, hcur, hne⟩

end UserCache

namespace NickCache

/-- The commit phase of `NickCache.sync` clears every snapshot key,
unconditionally: a key is still dirty afterwards iff it was dirty and has
no snapshot entry at all. -/
theorem mem_syncClear_dirty_nick (payloads : List ((Val × Val) × CachedNick)) (s : NState)
    (k : Val × Val) :
    k ∈ (syncClear payloads s).dirty ↔
      k ∈ s.dirty ∧ ∀ c, (k, c) ∈ payloads → False := by
  induction payloads generalizing s with
  | nil => simp [syncClear]
  | cons kv rest ih =>
    obtain ⟨kv1, kv2⟩ := kv
    have hstep : syncClear ((kv1, kv2) :: rest) s =
        syncClear rest { s with dirty := sDiscard s.dirty kv1 } := rfl
    rw [hstep, ih]
    simp only [mem_sDiscard, List.mem_cons]
    constructor
    · rintro ⟨⟨h1, h2⟩, h3⟩
      refine ⟨h1, fun c hc => ?_⟩
      rcases hc with hc | hc
      · exact h2 (congrArg Prod.fst hc)
      · exact h3 c hc
    · rintro ⟨h1, h2⟩
      refine ⟨⟨h1, fun hk => h2 kv2 (Or.inl ?_)⟩, fun c hc => h2 c (Or.inr hc)⟩
      rw [hk]

end NickCache

/-- C1 (amended): race retention in sync, per manager.  For
`UserCache.sync`, a snapshot key is cleared from the dirty set only when
it is no longer cached or the live cached record still equals the flushed
snapshot record, so a record mutated by a concurrent `edit` between
snapshot and commit stays dirty.  `NickCache.sync`, however, clears every
snapshot key unconditionally, so there the property fails and a concurrent
edit loses its dirty mark. -/
theorem claim_C1_amended :
    (∀ (payloads : List (Val × CachedUser)) (s : UState) (k : Val),
        k ∈ (UserCache.syncClear payloads s).dirty ↔
          k ∈ s.dirty ∧ ∀ c, (k, c) ∈ payloads →
            ∃ cur, alGet s.cache k = some cur ∧ cur ≠ c) ∧
    (∀ (payloads : List ((Val × Val) × CachedNick)) (s : NState) (k : Val × Val),
        k ∈ (NickCache.syncClear payloads s).dirty ↔
          k ∈ s.dirty ∧ ∀ c, (k, c) ∈ payloads → False) :=
  ⟨UserCache.mem_syncClear_dirty, NickCache.mem_syncClear_dirty_nick⟩

/-- C1 counterexample: a concrete run of `NickCache.sync` in which the
store flush succeeds, a concurrent `add_nick` rewrites the cached record
during the unlocked I/O phase (so the live value differs from the
snapshot), and the commit phase nevertheless clears the key from the dirty
set — the claimed retention fails for this manager. -/
theorem claim_C1_counterexample :
    (let k : Val × Val := (Val.vInt 1, Val.vInt 2)
     let recA : CachedNick :=
       { id := Val.vInt 1, tg_user_id := Val.vInt 1, tg_chat_id := Val.vInt 2,
         nick := Val.vStr "a", created_by_tg_id := Val.vNone, created_at := Val.vNone }
     let st0 : NickStore :=
       { users := [(1, Val.vInt 1)]
         chats := [(1, Val.vInt 2)]
         nicks := [{ id := 1, user_id := 1, chat_id := 1, nick := Val.vStr "old",
                     created_by_id := Val.vNone, created_at := Val.vNone }]
         nextUserId := 2
         nextChatId := 2
         nextNickId := 2 }
     let s0 : NState := { cache := [(k, recA)], dirty := [k] }
     let payloads := NickCache.syncSnapshot s0
     let s1 := (NickCache.addNick s0 st0 (Val.vInt 1) (Val.vInt 2) (Val.vStr "b") Val.vNone).1
     ( NickCache.syncIO payloads st0 false).2.2 = false ∧
       (k, recA) ∈ payloads ∧
       k ∈ s1.dirty ∧
       alGet s1.cache k ≠ some recA ∧
       k ∉ (NickCache.syncClear payloads s1).dirty) := by
  decide

/-- C4: sync error atomicity.  When the modelled store exception fires
during the I/O phase, both `UserCache.sync` and `NickCache.sync` return
normally (the `except` branch logs and returns), leave the cache map and
the dirty set exactly as they were, and every snapshot key is still dirty
for the next cycle. -/
theorem claim_C4 :
    (∀ (s : UState) (st : UserStore) (b : Nat) (j : Nat),
        ( UserCache.syncIO (UserCache.chunkList b (UserCache.syncSnapshot s)) st (some j)).2.2 = true →
        (UserCache.sync s st b (some j)).1 = s ∧
          ∀ kc ∈ UserCache.syncSnapshot s, kc.1 ∈ (UserCache.sync s st b (some j)).1.dirty) ∧
    (∀ (s : NState) (st : NickStore),
        s.dirty ≠ [] → NickCache.syncSnapshot s ≠ [] →
        (NickCache.sync s st true).1 = s ∧
          ∀ kc ∈ NickCache.syncSnapshot s, kc.1 ∈ (NickCache.sync s st true).1.dirty) := by
  constructor
  · intro s st b j hraised
    have hsub : ∀ kc ∈ UserCache.syncSnapshot s, kc.1 ∈ s.dirty := by
      intro kc hkc
      simp only [UserCache.syncSnapshot, List.mem_filterMap] at hkc
      obtain ⟨a, ha, hmap⟩ := hkc
      rcases hg : alGet s.cache a with _ | c
      · rw [hg] at hmap
        exact Option.noConfusion hmap
      · rw [hg] at hmap
        have hkc2 : (a, c) = kc := by simpa using hmap
        rw [← hkc2]
        exact ha
    by_cases h1 : s.dirty = []
    · constructor
      · simp [UserCache.sync, h1]
      · intro kc hkc
        have hmem := hsub kc hkc
        rw [h1] at hmem
        exact absurd hmem (List.not_mem_nil _)
    · by_cases h2 : UserCache.syncSnapshot s = []
      · constructor
        · simp [UserCache.sync, h1, h2]
        · intro kc hkc
          rw [h2] at hkc
          exact absurd hkc (List.not_mem_nil _)
      · have hsync : (UserCache.sync s st b (some j)).1 = s := by
          simp [UserCache.sync, h1, h2, hraised]
        exact ⟨hsync, fun kc hkc => by rw [hsync]; exact hsub kc hkc⟩
  · intro s st h1 h2
    have hsub : ∀ kc ∈ NickCache.syncSnapshot s, kc.1 ∈ s.dirty := by
      intro kc hkc
      simp only [NickCache.syncSnapshot, List.mem_filterMap] at hkc
      obtain ⟨a, ha, hmap⟩ := hkc
      rcases hg : alGet s.cache a with _ | c
      · rw [hg] at hmap
        exact Option.noConfusion hmap
      · rw [hg] at hmap
        have hkc2 : (a, c) = kc := by simpa using hmap
        rw [← hkc2]
        exact ha
    have hsync : (NickCache.sync s st true).1 = s := by
      simp [NickCache.sync, h1, h2, NickCache.syncIO]
    exact ⟨hsync, fun kc hkc => by rw [hsync]; exact hsub kc hkc⟩

/-- C1 (amended) witness: both characterizations applied at a concrete
snapshot, state and key. -/
theorem claim_C1_amended_witness :
    (let c : CachedUser :=
      { id := Val.vNone, tg_user_id := Val.vInt 5, username := Val.vStr "a",
        first_name := Val.vNone, last_name := Val.vNone, is_bot := Val.vBool false,
        is_owner := Val.vBool false, banned_until := Val.vNone,
        messages_count := Val.vInt 0, meta := Val.vNone, created_at := Val.vNone,
        last_seen := Val.vNone }
     let s : UState := ⟨[(Val.vInt 5, { c with username := Val.vStr "b" })], [], [Val.vInt 5]⟩
     Val.vInt 5 ∈ (UserCache.syncClear [(Val.vInt 5, c)] s).dirty ↔
       Val.vInt 5 ∈ s.dirty ∧ ∀ c2, (Val.vInt 5, c2) ∈ [(Val.vInt 5, c)] →
         ∃ cur, alGet s.cache (Val.vInt 5) = some cur ∧ cur ≠ c2) ∧
    (let n : CachedNick :=
      { id := Val.vNone, tg_user_id := Val.vInt 1, tg_chat_id := Val.vInt 2,
        nick := Val.vStr "a", created_by_tg_id := Val.vNone, created_at := Val.vNone }
     let s : NState := ⟨[((Val.vInt 1, Val.vInt 2), n)], [(Val.vInt 1, Val.vInt 2)]⟩
     (Val.vInt 1, Val.vInt 2) ∈ (NickCache.syncClear [((Val.vInt 1, Val.vInt 2), n)] s).dirty ↔
       (Val.vInt 1, Val.vInt 2) ∈ s.dirty ∧
         ∀ c2, ((Val.vInt 1, Val.vInt 2), c2) ∈ [((Val.vInt 1, Val.vInt 2), n)] → False) :=
  ⟨claim_C1_amended.1 _ _ _, claim_C1_amended.2 _ _ _⟩

/-- C6 counterexample: on a concrete one-record cache, `get(key)` with no
field selector returns exactly the address stored in the cache dict — the
live cached object, not a copy — and an attribute assignment through that
returned reference changes the record every later reader observes while
the dirty set stays empty. -/
theorem claim_C6_counterexample :
    (let c0 : CachedUser :=
      { id := Val.vNone, tg_user_id := Val.vInt 1, username := Val.vStr "refuser",
        first_name := Val.vNone, last_name := Val.vNone, is_bot := Val.vBool false,
        is_owner := Val.vBool false, banned_until := Val.vNone,
        messages_count := Val.vInt 0, meta := Val.vNone, created_at := Val.vNone,
        last_seen := Val.vNone }
     let s : UHeapState := { heapNext := 1, heap := [(0, c0)], cache := [(Val.vInt 1, 0)], dirty := [] }
     UHeap.getRecordAddr s (Val.vInt 1) = alGet s.cache (Val.vInt 1) ∧
       UHeap.getRecordAddr s (Val.vInt 1) = some 0 ∧
       UHeap.viewRecord (UHeap.setattrAt s 0 "username" (Val.vStr "mut")) (Val.vInt 1) ≠
         UHeap.viewRecord s (Val.vInt 1) ∧
       (UHeap.setattrAt s 0 "username" (Val.vStr "mut")).dirty = s.dirty) := by
  decide

/-- C6 (amended): `get(key)` with no field selector returns the live
cached object itself — the very address the cache dict holds — so a
mutation through the returned reference updates the record observed
through the cache while bypassing the dirty set entirely (the cache dict
and dirty set are untouched by such a mutation). -/
theorem claim_C6_amended (s : UHeapState) (k : Val) (a : Nat)
    (h : UHeap.getRecordAddr s k = some a) :
    alGet s.cache k = some a ∧
      ∀ f v, (UHeap.setattrAt s a f v).cache = s.cache ∧
        (UHeap.setattrAt s a f v).dirty = s.dirty ∧
        UHeap.viewRecord (UHeap.setattrAt s a f v) k =
          (UHeap.viewRecord s k).map (fun o => o.setattr f v) := by
  refine ⟨h, fun f v => ⟨rfl, rfl, ?_⟩⟩
  have hc : alGet s.cache k = some a := h
  simp only [UHeap.viewRecord, UHeap.setattrAt, hc]
  rw [alGet_map_update s.heap a a (fun o => o.setattr f v)]
  simp

/-- C6 (amended) witness: the theorem applied to the concrete one-record
heap state. -/
theorem claim_C6_amended_witness :
    (let c0 : CachedUser :=
      { id := Val.vNone, tg_user_id := Val.vInt 1, username := Val.vStr "refuser",
        first_name := Val.vNone, last_name := Val.vNone, is_bot := Val.vBool false,
        is_owner := Val.vBool false, banned_until := Val.vNone,
        messages_count := Val.vInt 0, meta := Val.vNone, created_at := Val.vNone,
        last_seen := Val.vNone }
     let s : UHeapState := { heapNext := 1, heap := [(0, c0)], cache := [(Val.vInt 1, 0)], dirty := [] }
     alGet s.cache (Val.vInt 1) = some 0 ∧
       ∀ f v, (UHeap.setattrAt s 0 f v).cache = s.cache ∧
         (UHeap.setattrAt s 0 f v).dirty = s.dirty ∧
         UHeap.viewRecord (UHeap.setattrAt s 0 f v) (Val.vInt 1) =
           (UHeap.viewRecord s (Val.vInt 1)).map (fun o => o.setattr f v)) :=
  claim_C6_amended _ (Val.vInt 1) 0 (by decide)

/-- C7: remove semantics and ordering.  `remove` is literally the locked
eviction phase followed by the store delete (the composition in its
definition mirrors the source's two phases); the locked phase already
leaves the key absent from the cache map and — given the dirty-containment
invariant — from the dirty set; afterwards `get(key)` is `None` and the
store holds no row for the key.  The same holds for `remove_nick`, where
"no row" is read through the repository's foreign-key join. -/
theorem claim_C7 :
    (∀ (s : UState) (st : UserStore) (k : Val), UInv s →
        UserCache.remove s st k =
          (UserCache.removeLockPhase s k, UserCache.deleteByTg st k, [StoreOp.deleteByTg k]) ∧
        alGet (UserCache.removeLockPhase s k).cache k = none ∧
        k ∉ (UserCache.removeLockPhase s k).dirty ∧
        UserCache.getRecord (UserCache.remove s st k).1 k = none ∧
        ∀ r ∈ (UserCache.remove s st k).2.1.rows, r.tg_user_id ≠ k) ∧
    (∀ (s : NState) (st : NickStore) (tgu tgc : Val), NInv s →
        (st.users.map (·.2)).Nodup → (st.chats.map (·.2)).Nodup →
        NickCache.getRecord (NickCache.removeNick s st tgu tgc).1 (tgu, tgc) = none ∧
        (tgu, tgc) ∉ (NickCache.removeNick s st tgu tgc).1.dirty ∧
        ¬ nickStoreHasKey (NickCache.removeNick s st tgu tgc).2.1 (tgu, tgc)) := by
  constructor
  · intro s st k hinv
    have hlock : alGet (UserCache.removeLockPhase s k).cache k = none ∧
        k ∉ (UserCache.removeLockPhase s k).dirty := by
      rcases h : alGet s.cache k with _ | c
      · constructor
        · simp [UserCache.removeLockPhase, h]
        · simp only [UserCache.removeLockPhase, h]
          intro hk
          have := hinv k hk
          rw [h] at this
          simp at this
      · constructor
        · simp [UserCache.removeLockPhase, h, alGet_alErase]
        · simp [UserCache.removeLockPhase, h]
    refine ⟨rfl, hlock.1, hlock.2, hlock.1, ?_⟩
    intro r hr
    have := List.of_mem_filter hr
    simpa using this
  · intro s st tgu tgc hinv hu hc
    have hstate : (NickCache.removeNick s st tgu tgc).1 =
        (NickCache.removeLockPhase s (tgu, tgc)).1 := rfl
    have hlock : alGet (NickCache.removeLockPhase s (tgu, tgc)).1.cache (tgu, tgc) = none ∧
        (tgu, tgc) ∉ (NickCache.removeLockPhase s (tgu, tgc)).1.dirty := by
      rcases h : alGet s.cache (tgu, tgc) with _ | n
      · constructor
        · simp [NickCache.removeLockPhase, h]
        · simp only [NickCache.removeLockPhase, h]
          intro hk
          have := hinv _ hk
          rw [h] at this
          simp at this
      · constructor
        · simp [NickCache.removeLockPhase, h, alGet_alErase]
        · simp [NickCache.removeLockPhase, h]
    refine ⟨by rw [hstate]; exact hlock.1, by rw [hstate]; exact hlock.2, ?_⟩
    have hstore : (NickCache.removeNick s st tgu tgc).2.1 = NickCache.deleteRecord st tgu tgc := rfl
    rw [hstore]
    have husers : (NickCache.deleteRecord st tgu tgc).users = st.users := by
      cases hfu : firstRefByTg st.users tgu <;> cases hfc : firstRefByTg st.chats tgc <;>
        simp [NickCache.deleteRecord, hfu, hfc]
    have hchats : (NickCache.deleteRecord st tgu tgc).chats = st.chats := by
      cases hfu : firstRefByTg st.users tgu <;> cases hfc : firstRefByTg st.chats tgc <;>
        simp [NickCache.deleteRecord, hfu, hfc]
    rintro ⟨n, hn, u, humem, c, hcmem, hnu, hnc, hutg, hctg⟩
    rw [husers] at humem
    rw [hchats] at hcmem
    rcases hfu : firstRefByTg st.users tgu with _ | u0
    · have hnone : ∀ x ∈ st.users, x.2 ≠ tgu := by
        intro x hx
        have := List.find?_eq_none.mp hfu x hx
        simpa using this
      exact hnone u humem hutg
    · rcases hfc : firstRefByTg st.chats tgc with _ | c0
      · have hnone : ∀ x ∈ st.chats, x.2 ≠ tgc := by
          intro x hx
          have := List.find?_eq_none.mp hfc x hx
          simpa using this
        exact hnone c hcmem hctg
      · simp only [NickCache.deleteRecord, hfu, hfc] at hn
        have hu0mem : u0 ∈ st.users := List.mem_of_find?_eq_some hfu
        have hu0tg : u0.2 = tgu := by
          have := List.find?_some hfu
          simpa using this
        have hc0mem : c0 ∈ st.chats := List.mem_of_find?_eq_some hfc
        have hc0tg : c0.2 = tgc := by
          have := List.find?_some hfc
          simpa using this
        have huu : u = u0 :=
          List.inj_on_of_nodup_map hu humem hu0mem (by rw [hutg, hu0tg])
        have hcc : c = c0 :=
          List.inj_on_of_nodup_map hc hcmem hc0mem (by rw [hctg, hc0tg])
        have hpred := List.of_mem_filter hn
        simp only [decide_eq_true_eq] at hpred
        exact hpred ⟨by rw [hnu, huu], by rw [hnc, hcc]⟩

/-- C7 witness: both parts applied to a concrete one-record state. -/
theorem claim_C7_witness :
    (let st : UserStore := { rows := [baseUserRow 3 (Val.vInt 7)], nextId := 4 }
     let s := (UserCache.bootLoad freshU st).1
     UInv s ∧ UserCache.getRecord (UserCache.remove s st (Val.vInt 7)).1 (Val.vInt 7) = none ∧
       ∀ r ∈ (UserCache.remove s st (Val.vInt 7)).2.1.rows, r.tg_user_id ≠ Val.vInt 7) ∧
    (let n : CachedNick :=
      { id := Val.vInt 1, tg_user_id := Val.vInt 1, tg_chat_id := Val.vInt 2,
        nick := Val.vStr "a", created_by_tg_id := Val.vNone, created_at := Val.vNone }
     let st : NickStore :=
       { users := [(1, Val.vInt 1)]
         chats := [(1, Val.vInt 2)]
         nicks := [{ id := 1, user_id := 1, chat_id := 1, nick := Val.vStr "a",
                     created_by_id := Val.vNone, created_at := Val.vNone }]
         nextUserId := 2
         nextChatId := 2
         nextNickId := 2 }
     let s : NState := ⟨[((Val.vInt 1, Val.vInt 2), n)], []⟩
     NInv s ∧
       NickCache.getRecord (NickCache.removeNick s st (Val.vInt 1) (Val.vInt 2)).1
         (Val.vInt 1, Val.vInt 2) = none ∧
       ¬ nickStoreHasKey (NickCache.removeNick s st (Val.vInt 1) (Val.vInt 2)).2.1
         (Val.vInt 1, Val.vInt 2)) := by
  constructor
  · have hinv : UInv (UserCache.bootLoad freshU { rows := [baseUserRow 3 (Val.vInt 7)], nextId := 4 }).1 := by
      intro k hk
      simp [UserCache.bootLoad, UserCache.bootStep, freshU] at hk
    have h := claim_C7.1 (UserCache.bootLoad freshU { rows := [baseUserRow 3 (Val.vInt 7)], nextId := 4 }).1
      { rows := [baseUserRow 3 (Val.vInt 7)], nextId := 4 } (Val.vInt 7) hinv
    exact ⟨hinv, h.2.2.2.1, h.2.2.2.2⟩
  · have hinv : NInv (⟨[((Val.vInt 1, Val.vInt 2),
        ({ id := Val.vInt 1, tg_user_id := Val.vInt 1, tg_chat_id := Val.vInt 2,
           nick := Val.vStr "a", created_by_tg_id := Val.vNone,
           created_at := Val.vNone } : CachedNick))], []⟩ : NState) := by
      intro k hk
      exact absurd hk (List.not_mem_nil _)
    have h := claim_C7.2
      (⟨[((Val.vInt 1, Val.vInt 2),
        ({ id := Val.vInt 1, tg_user_id := Val.vInt 1, tg_chat_id := Val.vInt 2,
           nick := Val.vStr "a", created_by_tg_id := Val.vNone,
           created_at := Val.vNone } : CachedNick))], []⟩ : NState)
      ({ users := [(1, Val.vInt 1)]
         chats := [(1, Val.vInt 2)]
         nicks := [{ id := 1, user_id := 1, chat_id := 1, nick := Val.vStr "a",
                     created_by_id := Val.vNone, created_at := Val.vNone }]
         nextUserId := 2
         nextChatId := 2
         nextNickId := 2 } : NickStore)
      (Val.vInt 1) (Val.vInt 2) hinv (by decide) (by decide)
    exact ⟨hinv, h.1, h.2.2⟩

/-! ## Invariant preservation lemmas for C5 -/

namespace UserCache

theorem bootStep_dirty (s : UState) (r : UserRow) : (bootStep s r).dirty = s.dirty := rfl

theorem bootStep_mono (s : UState) (r : UserRow) (k : Val)
    (h : (alGet s.cache k).isSome) : (alGet (bootStep s r).cache k).isSome :=
  alGet_isSome_alInsert _ _ _ _ h

theorem foldl_bootStep_inv (rows : List UserRow) (s : UState) (h : UInv s) :
    UInv (rows.foldl bootStep s) := by
  induction rows generalizing s with
  | nil => exact h
  | cons r rest ih =>
    refine ih (bootStep s r) ?_
    intro k hk
    rw [bootStep_dirty] at hk
    exact bootStep_mono s r k (h k hk)

theorem ensureCached_dirty (s : UState) (st : UserStore) (k : Val)
    (d : List (String × Val)) : (ensureCached s st k d).1.dirty = s.dirty := by
  by_cases h : (alGet s.cache k).isSome <;> simp [ensureCached, h]

theorem ensureCached_mono (s : UState) (st : UserStore) (k : Val)
    (d : List (String × Val)) (k2 : Val) (h : (alGet s.cache k2).isSome) :
    (alGet (ensureCached s st k d).1.cache k2).isSome := by
  by_cases hc : (alGet s.cache k).isSome
  · simpa [ensureCached, hc] using h
  · simp only [ensureCached, hc, if_false, Bool.false_eq_true]
    exact alGet_isSome_alInsert _ _ _ _ h

theorem edit_inv (s : UState) (st : UserStore) (k : Val) (fs : List (String × Val))
    (h : UInv s) : UInv (edit s st k fs).1 := by
  rcases hc : alGet (ensureCached s st k fs).1.cache k with _ | c
  · have hstate : (edit s st k fs).1 = (ensureCached s st k fs).1 := by
      simp [edit, hc]
    rw [hstate]
    intro k2 hk2
    rw [ensureCached_dirty] at hk2
    exact ensureCached_mono s st k fs k2 (h k2 hk2)
  · have hstate := edit_state s st k fs c hc
    rw [hstate]
    intro k2 hk2
    simp only [mem_sAdd, ensureCached_dirty] at hk2
    rcases hk2 with hk2 | rfl
    · exact alGet_isSome_alInsert _ _ _ _ (ensureCached_mono s st k fs k2 (h k2 hk2))
    · simp

theorem remove_inv (s : UState) (st : UserStore) (k : Val) (h : UInv s) :
    UInv (remove s st k).1 := by
  rcases hc : alGet s.cache k with _ | c
  · have hstate : (remove s st k).1 = s := by
      simp [remove, removeLockPhase, hc]
    rw [hstate]
    exact h
  · have hstate : (remove s st k).1 =
        { cache := alErase s.cache k
          dbIdIndex := if c.id.truthy then alErase s.dbIdIndex c.id else s.dbIdIndex
          dirty := sDiscard s.dirty k } := by
      simp [remove, removeLockPhase, hc]
    rw [hstate]
    intro k2 hk2
    simp only [mem_sDiscard] at hk2
    obtain ⟨hk2, hne⟩ := hk2
    have hmem := h k2 hk2
    have hkk : ¬ k = k2 := fun hh => hne hh.symm
    rw [alGet_alErase, if_neg hkk]
    exact hmem

theorem syncClear_cache (payloads : List (Val × CachedUser)) (s : UState) :
    (syncClear payloads s).cache = s.cache := by
  induction payloads generalizing s with
  | nil => rfl
  | cons kv rest ih =>
    have hstep : syncClear (kv :: rest) s = syncClear rest (syncClearStep s kv) := rfl
    rw [hstep, ih, syncClearStep_cache]

theorem syncClear_inv (payloads : List (Val × CachedUser)) (s : UState) (h : UInv s) :
    UInv (syncClear payloads s) := by
  intro k hk
  rw [UserCache.mem_syncClear_dirty] at hk
  rw [syncClear_cache]
  exact h k hk.1

theorem sync_state_cases (s : UState) (st : UserStore) (b : Nat) (f : Option Nat) :
    (sync s st b f).1 = s ∨ (sync s st b f).1 = syncClear (syncSnapshot s) s := by
  by_cases h1 : s.dirty = []
  · left
    simp [sync, h1]
  · by_cases h2 : syncSnapshot s = []
    · left
      simp [sync, h1, h2]
    · by_cases h3 : ( syncIO (chunkList b (syncSnapshot s)) st f).2.2 = true
      · left
        simp [sync, h1, h2, h3]
      · right
        simp only [Bool.not_eq_true] at h3
        simp [sync, h1, h2, h3]

theorem sync_inv (s : UState) (st : UserStore) (b : Nat) (f : Option Nat)
    (h : UInv s) : UInv (sync s st b f).1 := by
  rcases sync_state_cases s st b f with hs | hs <;> rw [hs]
  · exact h
  · exact syncClear_inv _ s h

theorem incr_inv (s : UState) (k : Val) (h : UInv s) :
    UInv (stepU (s, st) (UOp.incr k)).1 := by
  rcases hc : alGet s.cache k with _ | obj
  · have hstate : stepU (s, st) (UOp.incr k) = (s, st) := by
      simp [stepU, incrementMessagesCount, hc]
    rw [hstate]
    exact h
  · rcases hm : obj.messages_count with _ | i | sv | bv
    all_goals try
      (have hstate : stepU (s, st) (UOp.incr k) = (s, st) := by
        simp [stepU, incrementMessagesCount, hc, hm]
       rw [hstate]
       exact h)
    have hstate : stepU (s, st) (UOp.incr k) =
        ({ s with
            cache := alInsert s.cache k { obj with messages_count := Val.vInt (i + 1) }
            dirty := sAdd s.dirty k }, st) := by
      simp [stepU, incrementMessagesCount, hc, hm]
    rw [hstate]
    intro k2 hk2
    simp only [mem_sAdd] at hk2
    rcases hk2 with hk2 | rfl
    · exact alGet_isSome_alInsert _ _ _ _ (h k2 hk2)
    · simp

theorem stepU_inv (p : UState × UserStore) (op : UOp) (h : UInv p.1) :
    UInv (stepU p op).1 := by
  obtain ⟨s, st⟩ := p
  cases op with
  | load => exact foldl_bootStep_inv _ s h
  | readRec k => exact h
  | readF k f => exact h
  | ensure k d =>
    intro k2 hk2
    simp only [stepU] at hk2 ⊢
    rw [ensureCached_dirty] at hk2
    exact ensureCached_mono s st k d k2 (h k2 hk2)
  | editRec k fs => exact edit_inv s st k fs h
  | removeRec k => exact remove_inv s st k h
  | syncAll b f => exact sync_inv s st b f h
  | incr k => exact incr_inv s k h

end UserCache

namespace RoleCache

theorem bootStep_dirty_role (st : RoleStore) (s : RState) (r : RoleRow) :
    (bootStep st s r).dirty = s.dirty := by
  unfold bootStep
  rcases refTgByIdV st.users r.user_id with _ | ut <;>
    rcases refTgByIdV st.chats r.chat_id with _ | ct <;> rfl

theorem bootStep_mono_role (st : RoleStore) (s : RState) (r : RoleRow) (k : Val × Val)
    (h : (alGet s.cache k).isSome) : (alGet (bootStep st s r).cache k).isSome := by
  unfold bootStep
  rcases refTgByIdV st.users r.user_id with _ | ut <;>
    rcases refTgByIdV st.chats r.chat_id with _ | ct
  · exact h
  · exact h
  · exact h
  · exact alGet_isSome_alInsert _ _ _ _ h

theorem foldl_bootStep_inv_role (st : RoleStore) (rows : List RoleRow) (s : RState)
    (h : RInv s) : RInv (rows.foldl (bootStep st) s) := by
  induction rows generalizing s with
  | nil => exact h
  | cons r rest ih =>
    refine ih (bootStep st s r) ?_
    intro k hk
    rw [bootStep_dirty_role] at hk
    exact bootStep_mono_role st s r k (h k hk)

theorem ensureCached_dirty_role (s : RState) (st : RoleStore) (tgu tgc : Val)
    (d : List (String × Val)) : (ensureCached s st tgu tgc d).1.dirty = s.dirty := by
  by_cases h : (alGet s.cache (tgu, tgc)).isSome
  · simp [ensureCached, h]
  · simp only [ensureCached, h, if_false, Bool.false_eq_true]
    rcases refTgByIdV (ensureRecord st tgu tgc d).2.2.users (ensureRecord st tgu tgc d).1.user_id
      with _ | ut <;>
      rcases refTgByIdV (ensureRecord st tgu tgc d).2.2.chats (ensureRecord st tgu tgc d).1.chat_id
        with _ | ct <;> simp

theorem ensureCached_mono_role (s : RState) (st : RoleStore) (tgu tgc : Val)
    (d : List (String × Val)) (k2 : Val × Val) (h : (alGet s.cache k2).isSome) :
    (alGet (ensureCached s st tgu tgc d).1.cache k2).isSome := by
  by_cases hc : (alGet s.cache (tgu, tgc)).isSome
  · simpa [ensureCached, hc] using h
  · simp only [ensureCached, hc, if_false, Bool.false_eq_true]
    rcases refTgByIdV (ensureRecord st tgu tgc d).2.2.users (ensureRecord st tgu tgc d).1.user_id
      with _ | ut <;>
      rcases refTgByIdV (ensureRecord st tgu tgc d).2.2.chats (ensureRecord st tgu tgc d).1.chat_id
        with _ | ct <;> simp [h, alGet_isSome_alInsert _ _ _ _ h]

theorem addRoleTail_inv (s1 : RState) (st1 : RoleStore) (tgu tgc level abTg : Val)
    (h : RInv s1) : RInv (addRoleTail s1 st1 tgu tgc level abTg).1 := by
  rcases hg : alGet s1.cache (tgu, tgc) with _ | r
  · have hstate : (addRoleTail s1 st1 tgu tgc level abTg).1 = s1 := by
      simp [addRoleTail, hg]
    rw [hstate]
    exact h
  · by_cases hl : r.level = level
    · have hstate : (addRoleTail s1 st1 tgu tgc level abTg).1 = s1 := by
        simp [addRoleTail, hg, hl]
      rw [hstate]
      exact h
    · by_cases hab : abTg = Val.vNone
      · have hstate : (addRoleTail s1 st1 tgu tgc level abTg).1 =
            { s1 with cache := alInsert s1.cache (tgu, tgc) { r with level := level } } := by
          simp [addRoleTail, hg, hl, hab]
        rw [hstate]
        intro k2 hk2
        exact alGet_isSome_alInsert _ _ _ _ (h k2 hk2)
      · have hstate : (addRoleTail s1 st1 tgu tgc level abTg).1 =
            { s1 with
                cache := alInsert (alInsert s1.cache (tgu, tgc) { r with level := level })
                  (tgu, tgc)
                  { { r with level := level } with
                      assigned_by_tg := (ensureRef st1.users st1.nextUserId abTg).1.2
                      assigned_by_id :=
                        Val.vInt (Int.ofNat (ensureRef st1.users st1.nextUserId abTg).1.1) }
                dirty := sAdd s1.dirty (tgu, tgc) } := by
          simp [addRoleTail, hg, hl, hab]
        rw [hstate]
        intro k2 hk2
        simp only [mem_sAdd] at hk2
        rcases hk2 with hk2 | rfl
        · exact alGet_isSome_alInsert _ _ _ _ (alGet_isSome_alInsert _ _ _ _ (h k2 hk2))
        · simp

theorem addRole_inv (s : RState) (st : RoleStore) (tgu tgc level abTg : Val)
    (h : RInv s) : RInv (addRole s st tgu tgc level abTg).1 := by
  have hinv1 : RInv (ensureCached s st tgu tgc
      [("level", level), ("assigned_by_id", Val.vNone)]).1 := by
    intro k hk
    rw [ensureCached_dirty_role] at hk
    exact ensureCached_mono_role s st tgu tgc _ k (h k hk)
  exact addRoleTail_inv _ _ tgu tgc level abTg hinv1

theorem removeRole_inv (s : RState) (st : RoleStore) (tgu tgc : Val) (h : RInv s) :
    RInv (removeRole s st tgu tgc).1 := by
  rcases hg : alGet s.cache (tgu, tgc) with _ | r
  · have hstate : (removeRole s st tgu tgc).1 = s := by
      simp [removeRole, hg]
    rw [hstate]
    exact h
  · have hstate : (removeRole s st tgu tgc).1 =
        { cache := alErase s.cache (tgu, tgc), dirty := sDiscard s.dirty (tgu, tgc) } := by
      simp [removeRole, hg]
    rw [hstate]
    intro k2 hk2
    simp only [mem_sDiscard] at hk2
    obtain ⟨hk2, hne⟩ := hk2
    have hmem := h k2 hk2
    have hkk : ¬ (tgu, tgc) = k2 := fun hh => hne hh.symm
    rw [alGet_alErase, if_neg hkk]
    exact hmem

theorem syncClearStep_cache_role (skipped : List (Val × Val)) (acc : RState)
    (kv : (Val × Val) × CachedRole) : (syncClearStep skipped acc kv).cache = acc.cache := by
  by_cases hs : kv.1 ∈ skipped
  · simp [syncClearStep, hs]
  · rcases hg : alGet acc.cache kv.1 with _ | cur
    · simp [syncClearStep, hs, hg]
    · by_cases he : cur.level = kv.2.level ∧ cur.assigned_by_id = kv.2.assigned_by_id <;>
        simp [syncClearStep, hs, hg, he]

theorem syncClearStep_dirty_sub (skipped : List (Val × Val)) (acc : RState)
    (kv : (Val × Val) × CachedRole) (k : Val × Val)
    (h : k ∈ (syncClearStep skipped acc kv).dirty) : k ∈ acc.dirty := by
  by_cases hs : kv.1 ∈ skipped
  · rw [show syncClearStep skipped acc kv = acc from by simp [syncClearStep, hs]] at h
    exact h
  · rcases hg : alGet acc.cache kv.1 with _ | cur
    · rw [show syncClearStep skipped acc kv = { acc with dirty := sDiscard acc.dirty kv.1 } from by
        simp [syncClearStep, hs, hg]] at h
      exact (mem_sDiscard _ _ _ |>.mp h).1
    · by_cases he : cur.level = kv.2.level ∧ cur.assigned_by_id = kv.2.assigned_by_id
      · rw [show syncClearStep skipped acc kv = { acc with dirty := sDiscard acc.dirty kv.1 } from by
          simp [syncClearStep, hs, hg, he]] at h
        exact (mem_sDiscard _ _ _ |>.mp h).1
      · rw [show syncClearStep skipped acc kv = acc from by simp [syncClearStep, hs, hg, he]] at h
        exact h

theorem syncClear_inv_role (payloads : List ((Val × Val) × CachedRole))
    (skipped : List (Val × Val)) (s : RState) (h : RInv s) :
    RInv (syncClear payloads skipped s) := by
  induction payloads generalizing s with
  | nil => exact h
  | cons kv rest ih =>
    have hstep : syncClear (kv :: rest) skipped s =
        syncClear rest skipped (syncClearStep skipped s kv) := rfl
    rw [hstep]
    refine ih _ ?_
    intro k hk
    rw [syncClearStep_cache_role]
    exact h k (syncClearStep_dirty_sub skipped s kv k hk)

theorem sync_inv_role (s : RState) (st : RoleStore) (fail : Bool) (h : RInv s) :
    RInv (sync s st fail).1 := by
  by_cases h1 : s.dirty = []
  · have hstate : (sync s st fail).1 = s := by simp [sync, h1]
    rw [hstate]
    exact h
  · by_cases h2 : syncSnapshot s = []
    · have hstate : (sync s st fail).1 = s := by simp [sync, h1, h2]
      rw [hstate]
      exact h
    · by_cases h3 : ( syncIO (syncSnapshot s) st fail).2.2 = true
      · have hstate : (sync s st fail).1 = s := by simp [sync, h1, h2, h3]
        rw [hstate]
        exact h
      · simp only [Bool.not_eq_true] at h3
        have hstate : (sync s st fail).1 =
            syncClear (syncSnapshot s) ( syncIO (syncSnapshot s) st fail).2.1 s := by
          simp [sync, h1, h2, h3]
        rw [hstate]
        exact syncClear_inv_role _ _ s h

theorem stepR_inv (p : RState × RoleStore) (op : ROp) (h : RInv p.1) :
    RInv (stepR p op).1 := by
  obtain ⟨s, st⟩ := p
  cases op with
  | load => exact foldl_bootStep_inv_role st _ s h
  | readRec k => exact h
  | ensure tgu tgc d =>
    intro k2 hk2
    simp only [stepR] at hk2 ⊢
    rw [ensureCached_dirty_role] at hk2
    exact ensureCached_mono_role s st tgu tgc d k2 (h k2 hk2)
  | addRole tgu tgc level abTg => exact addRole_inv s st tgu tgc level abTg h
  | removeRole tgu tgc => exact removeRole_inv s st tgu tgc h
  | syncRole fail => exact sync_inv_role s st fail h

end RoleCache

/-- C5: dirty-set containment invariant.  Starting from a freshly
constructed manager and an arbitrary store, after any sequence of
cold-start loads, reads, ensures, edits (`add_role` for the role manager),
removes and syncs (with or without store failures), every dirty key has a
cached record — for the user manager and for the role manager. -/
theorem claim_C5 :
    (∀ (ops : List UOp) (st0 : UserStore), UInv (ops.foldl stepU (freshU, st0)).1) ∧
    (∀ (ops : List ROp) (st0 : RoleStore), RInv (ops.foldl stepR (freshR, st0)).1) := by
  have hU : ∀ (ops : List UOp) (p : UState × UserStore), UInv p.1 →
      UInv (ops.foldl stepU p).1 := by
    intro ops
    induction ops with
    | nil => exact fun p h => h
    | cons op rest ih => exact fun p h => ih (stepU p op) (UserCache.stepU_inv p op h)
  have hR : ∀ (ops : List ROp) (p : RState × RoleStore), RInv p.1 →
      RInv (ops.foldl stepR p).1 := by
    intro ops
    induction ops with
    | nil => exact fun p h => h
    | cons op rest ih => exact fun p h => ih (stepR p op) (RoleCache.stepR_inv p op h)
  constructor
  · intro ops st0
    exact hU ops (freshU, st0) (fun k hk => absurd hk (List.not_mem_nil _))
  · intro ops st0
    exact hR ops (freshR, st0) (fun k hk => absurd hk (List.not_mem_nil _))

/-! ## Lemmas for the sync flush round trip (C2) -/

namespace UserCache

theorem lastRowByTg_eq_aux (l : List UserRow) (k : Val) (acc : Option UserRow) :
    l.foldl (fun a r => if r.tg_user_id = k then some r else a) acc =
      match lastRowByTg l k with
      | some x => some x
      | none => acc := by
  induction l generalizing acc with
  | nil => simp [lastRowByTg]
  | cons r rest ih =>
    have hl : lastRowByTg (r :: rest) k =
        match lastRowByTg rest k with
        | some x => some x
        | none => if r.tg_user_id = k then some r else none := by
      show rest.foldl _ (if r.tg_user_id = k then some r else none) = _
      rw [ih]
    show rest.foldl _ (if r.tg_user_id = k then some r else acc) = _
    rw [ih, hl]
    rcases lastRowByTg rest k with _ | x
    · by_cases hr : r.tg_user_id = k <;> simp [hr]
    · rfl

theorem lastRowByTg_cons (r : UserRow) (l : List UserRow) (k : Val) :
    lastRowByTg (r :: l) k =
      match lastRowByTg l k with
      | some x => some x
      | none => if r.tg_user_id = k then some r else none := by
  show l.foldl _ (if r.tg_user_id = k then some r else none) = _
  rw [lastRowByTg_eq_aux]

theorem lastRowByTg_mem {l : List UserRow} {k : Val} {x : UserRow}
    (h : lastRowByTg l k = some x) : x ∈ l ∧ x.tg_user_id = k := by
  induction l with
  | nil => exact absurd h (by simp [lastRowByTg])
  | cons r rest ih =>
    rw [lastRowByTg_cons] at h
    rcases hrest : lastRowByTg rest k with _ | y <;> rw [hrest] at h
    · by_cases hr : r.tg_user_id = k
      · rw [if_pos hr] at h
        obtain rfl := Option.some_injective _ h
        exact ⟨List.mem_cons_self _ _, hr⟩
      · rw [if_neg hr] at h
        exact Option.noConfusion h
    · obtain rfl := Option.some_injective _ h
      obtain ⟨h1, h2⟩ := ih hrest
      exact ⟨List.mem_cons_of_mem _ h1, h2⟩

theorem lastRowByTg_eq_none_iff (l : List UserRow) (k : Val) :
    lastRowByTg l k = none ↔ ∀ r ∈ l, r.tg_user_id ≠ k := by
  induction l with
  | nil => simp [lastRowByTg]
  | cons r rest ih =>
    rw [lastRowByTg_cons]
    rcases hrest : lastRowByTg rest k with _ | y
    · rw [ih] at hrest
      by_cases hr : r.tg_user_id = k
      · simp only [if_pos hr]
        constructor
        · intro h
          exact Option.noConfusion h
        · intro h
          exact absurd hr (h r (List.mem_cons_self _ _))
      · simp only [if_neg hr]
        constructor
        · intro _ r2 hr2
          rcases List.mem_cons.mp hr2 with rfl | hr2
          · exact hr
          · exact hrest r2 hr2
        · intro _
          trivial
    · constructor
      · intro h
        exact Option.noConfusion h
      · intro h
        obtain ⟨hy, hyk⟩ := lastRowByTg_mem hrest
        exact absurd hyk (h y (List.mem_cons_of_mem _ hy))

theorem lastRowByTg_append (l1 l2 : List UserRow) (k : Val) :
    lastRowByTg (l1 ++ l2) k =
      match lastRowByTg l2 k with
      | some x => some x
      | none => lastRowByTg l1 k := by
  show (l1 ++ l2).foldl _ none = _
  rw [List.foldl_append]
  exact lastRowByTg_eq_aux l2 k _

theorem lastRowByTg_map (l : List UserRow) (φ : UserRow → UserRow) (k : Val)
    (h : ∀ r ∈ l, (φ r).tg_user_id = r.tg_user_id) :
    lastRowByTg (l.map φ) k = (lastRowByTg l k).map φ := by
  induction l with
  | nil => simp [lastRowByTg]
  | cons r rest ih =>
    rw [List.map_cons, lastRowByTg_cons, lastRowByTg_cons,
      ih (fun r2 hr2 => h r2 (List.mem_cons_of_mem _ hr2))]
    rcases lastRowByTg rest k with _ | y
    · rw [h r (List.mem_cons_self _ _)]
      by_cases hr : r.tg_user_id = k <;> simp [hr]
    · rfl

theorem lastRowByTg_unique {l : List UserRow} {r : UserRow} {k : Val}
    (htgs : (l.map (·.tg_user_id)).Nodup) (hr : r ∈ l) (hk : r.tg_user_id = k) :
    lastRowByTg l k = some r := by
  induction l with
  | nil => exact absurd hr (List.not_mem_nil _)
  | cons b rest ih =>
    rw [lastRowByTg_cons]
    rcases List.mem_cons.mp hr with rfl | hr2
    · have hnone : lastRowByTg rest k = none := by
        rw [lastRowByTg_eq_none_iff]
        intro r2 hr2 hr2k
        have hb : r.tg_user_id ∉ rest.map (·.tg_user_id) := (List.nodup_cons.mp htgs).1
        exact hb (hk ▸ hr2k ▸ List.mem_map_of_mem _ hr2)
      rw [hnone, if_pos hk]
    · rw [ih (List.nodup_cons.mp htgs).2 hr2]

theorem rowUpdate_id (r : UserRow) (c : CachedUser) :
    (rowUpdateFromCached r c).1.id = r.id := rfl

theorem rowUpdate_tg (r : UserRow) (c : CachedUser) :
    (rowUpdateFromCached r c).1.tg_user_id = r.tg_user_id := rfl

theorem rowUpdate_colGet (r : UserRow) (c : CachedUser) (f : String)
    (hf : f ∈ persistedUserFields) :
    (rowUpdateFromCached r c).1.colGet f = c.getattr f := by
  simp only [persistedUserFields, List.mem_cons, List.not_mem_nil, or_false] at hf
  rcases hf with rfl | rfl | rfl | rfl | rfl | rfl | rfl | rfl | rfl
  all_goals rfl

theorem rowUpdate_not_changed (r : UserRow) (c : CachedUser)
    (h : (rowUpdateFromCached r c).2 = false) (f : String)
    (hf : f ∈ persistedUserFields) : r.colGet f = c.getattr f := by
  simp only [rowUpdateFromCached, decide_eq_false_iff_not, not_not] at h
  obtain ⟨h1, h2, h3, h4, h5, h6, h7, h8, h9⟩ := h
  simp only [persistedUserFields, List.mem_cons, List.not_mem_nil, or_false] at hf
  rcases hf with rfl | rfl | rfl | rfl | rfl | rfl | rfl | rfl | rfl
  all_goals simp_all [UserRow.colGet, CachedUser.getattr]

theorem rowOfCached_colGet (i : Nat) (c : CachedUser) (f : String)
    (hf : f ∈ persistedUserFields) : (rowOfCached i c).colGet f = c.getattr f := by
  simp only [persistedUserFields, List.mem_cons, List.not_mem_nil, or_false] at hf
  rcases hf with rfl | rfl | rfl | rfl | rfl | rfl | rfl | rfl | rfl
  all_goals rfl

theorem rowOfCached_tg (i : Nat) (c : CachedUser) :
    (rowOfCached i c).tg_user_id = c.tg_user_id := rfl

theorem cachedOfRow_getattr (r : UserRow) (f : String)
    (hf : f ∈ persistedUserFields) : (cachedOfRow r).getattr f = r.colGet f := by
  simp only [persistedUserFields, List.mem_cons, List.not_mem_nil, or_false] at hf
  rcases hf with rfl | rfl | rfl | rfl | rfl | rfl | rfl | rfl | rfl
  all_goals rfl

theorem setattr_tg (c : CachedUser) (f : String) (v : Val)
    (hf : f ∈ persistedUserFields) : (c.setattr f v).tg_user_id = c.tg_user_id := by
  simp only [persistedUserFields, List.mem_cons, List.not_mem_nil, or_false] at hf
  rcases hf with rfl | rfl | rfl | rfl | rfl | rfl | rfl | rfl | rfl
  all_goals rfl

theorem find?_by_id_unique {l : List UserRow} {w : UserRow}
    (hN : (l.map (·.id)).Nodup) (hw : w ∈ l) :
    l.find? (fun x => decide (x.id = w.id)) = some w := by
  induction l with
  | nil => exact absurd hw (List.not_mem_nil _)
  | cons b rest ih =>
    rcases List.mem_cons.mp hw with rfl | hw2
    · simp [List.find?_cons]
    · have hb : b.id ≠ w.id := by
        intro hid
        have hmem : b.id ∈ rest.map (fun x => x.id) := by
          rw [hid]
          exact List.mem_map_of_mem _ hw2
        exact (List.nodup_cons.mp hN).1 hmem
      rw [List.find?_cons, show (decide (b.id = w.id)) = false from by simpa using hb]
      exact ih (List.nodup_cons.mp hN).2 hw2

theorem syncSnapshot_mem {s : UState} {kc : Val × CachedUser}
    (h : kc ∈ syncSnapshot s) : kc.1 ∈ s.dirty ∧ alGet s.cache kc.1 = some kc.2 := by
  simp only [syncSnapshot, List.mem_filterMap] at h
  obtain ⟨a, ha, hmap⟩ := h
  rcases hg : alGet s.cache a with _ | c <;> rw [hg] at hmap
  · exact Option.noConfusion hmap
  · have hkc : (a, c) = kc := by simpa using hmap
    rw [← hkc]
    exact ⟨ha, hg⟩

theorem syncSnapshot_mem_of {s : UState} {k : Val} {c : CachedUser}
    (hd : k ∈ s.dirty) (hc : alGet s.cache k = some c) : (k, c) ∈ syncSnapshot s := by
  simp only [syncSnapshot, List.mem_filterMap]
  exact ⟨k, hd, by rw [hc]; rfl⟩

theorem syncSnapshot_keys_sublist (s : UState) :
    List.Sublist ((syncSnapshot s).map (·.1)) s.dirty := by
  show List.Sublist ((s.dirty.filterMap _).map _) s.dirty
  generalize s.dirty = d
  induction d with
  | nil => simp
  | cons a rest ih =>
    rcases hg : alGet s.cache a with _ | c
    · simp only [List.filterMap_cons, hg, Option.map_none]
      exact ih.cons a
    · simp only [List.filterMap_cons, hg, Option.map_some, List.map_cons]
      exact ih.cons₂ a

theorem syncSnapshot_keys_nodup {s : UState} (h : s.dirty.Nodup) :
    ((syncSnapshot s).map (·.1)).Nodup :=
  (syncSnapshot_keys_sublist s).nodup h

theorem chunkAux_join (b : Nat) :
    ∀ (fuel : Nat) (l : List (Val × CachedUser)), l.length ≤ fuel →
      (chunkAux b fuel l).flatten = l := by
  intro fuel
  induction fuel with
  | zero =>
    intro l hl
    have : l = [] := List.eq_nil_of_length_eq_zero (Nat.le_zero.mp hl)
    subst this
    simp [chunkAux]
  | succ fuel ih =>
    intro l hl
    rcases l with _ | ⟨x, xs⟩
    · simp [chunkAux]
    · simp only [chunkAux, List.flatten]
      have hx : (xs.drop (b - 1)).length ≤ fuel := by
        rw [List.length_drop]
        have : xs.length ≤ fuel := by
          simpa [Nat.succ_le_succ_iff] using hl
        omega
      rw [ih _ hx]
      simp [List.take_append_drop]

theorem chunkList_join (b : Nat) (l : List (Val × CachedUser)) :
    (chunkList b l).flatten = l :=
  chunkAux_join b l.length l (Nat.le_refl _)

theorem syncIO_none_not_raised (batches : List (List (Val × CachedUser)))
    (st : UserStore) : ( syncIO batches st none).2.2 = false := by
  induction batches generalizing st with
  | nil => rfl
  | cons bt rest ih =>
    show ( syncIO (bt :: rest) st none).2.2 = false
    simp only [ syncIO]
    exact ih (syncBatch st bt).1

theorem ids_of_idtg {l1 l2 : List UserRow} (h : l1.map idtg = l2.map idtg) :
    l1.map (fun r => r.id) = l2.map (fun r => r.id) := by
  have h2 := congrArg (List.map Prod.fst) h
  simpa [List.map_map, Function.comp, idtg] using h2

theorem tgs_of_idtg {l1 l2 : List UserRow} (h : l1.map idtg = l2.map idtg) :
    l1.map (fun r => r.tg_user_id) = l2.map (fun r => r.tg_user_id) := by
  have h2 := congrArg (List.map Prod.snd) h
  simpa [List.map_map, Function.comp, idtg] using h2

theorem not_tg_mem_iff (l : List UserRow) (k : Val) :
    (∀ r ∈ l, r.tg_user_id ≠ k) ↔ k ∉ l.map (fun r => r.tg_user_id) := by
  constructor
  · intro h hmem
    obtain ⟨r, hr, hrk⟩ := List.mem_map.mp hmem
    exact h r hr hrk
  · intro h r hr hrk
    exact h (List.mem_map.mpr ⟨r, hr, hrk⟩)

theorem row2_idtg (work : List UserRow) (wm : UserRow) (c : CachedUser)
    (hN : (work.map (fun r => r.id)).Nodup) (hwm : wm ∈ work) :
    ∀ r ∈ work, r.id = (rowUpdateFromCached wm c).1.id →
      idtg (rowUpdateFromCached wm c).1 = idtg r := by
  intro r hr hid
  rw [rowUpdate_id] at hid
  have hrw : r = wm := List.inj_on_of_nodup_map hN hr hwm hid
  subst hrw
  simp [idtg, rowUpdate_id, rowUpdate_tg]

theorem map_update_idtg (work : List UserRow) (row2 : UserRow)
    (hex : ∀ r ∈ work, r.id = row2.id → idtg row2 = idtg r) :
    (work.map (fun r => if r.id = row2.id then row2 else r)).map idtg =
      work.map idtg := by
  rw [List.map_map]
  refine List.map_congr_left ?_
  intro r hr
  by_cases h : r.id = row2.id
  · simp only [Function.comp_apply, if_pos h]
    exact hex r hr h
  · simp [Function.comp_apply, h]

theorem lastRowByTg_upd (work : List UserRow) (wm row2 : UserRow) (k0 : Val)
    (hN : (work.map (fun r => r.id)).Nodup) (hwm : wm ∈ work)
    (hid : row2.id = wm.id) (htg : row2.tg_user_id = wm.tg_user_id)
    (hk0 : wm.tg_user_id ≠ k0) :
    lastRowByTg (work.map (fun r => if r.id = row2.id then row2 else r)) k0 =
      lastRowByTg work k0 := by
  have htgp : ∀ r ∈ work,
      ((fun r => if r.id = row2.id then row2 else r) r).tg_user_id = r.tg_user_id := by
    intro r hr
    by_cases h : r.id = row2.id
    · have hrw : r = wm := List.inj_on_of_nodup_map hN hr hwm (h.trans hid)
      simp only [if_pos h]
      rw [htg, hrw]
    · simp [h]
  rw [lastRowByTg_map work _ k0 htgp]
  rcases hl : lastRowByTg work k0 with _ | wmk
  · rfl
  · obtain ⟨hmem, htgk⟩ := lastRowByTg_mem hl
    have hne : ¬ wmk.id = row2.id := by
      intro h
      have hrw : wmk = wm := List.inj_on_of_nodup_map hN hmem hwm (h.trans hid)
      exact hk0 (hrw ▸ htgk)
    simp [hne]

theorem lastRowByTg_upd_self (work : List UserRow) (wm row2 : UserRow) (k : Val)
    (hwml : lastRowByTg work k = some wm) (hid : row2.id = wm.id)
    (htg : row2.tg_user_id = wm.tg_user_id)
    (hN : (work.map (fun r => r.id)).Nodup) :
    lastRowByTg (work.map (fun r => if r.id = row2.id then row2 else r)) k =
      some row2 := by
  obtain ⟨hwm, _⟩ := lastRowByTg_mem hwml
  have htgp : ∀ r ∈ work,
      ((fun r => if r.id = row2.id then row2 else r) r).tg_user_id = r.tg_user_id := by
    intro r hr
    by_cases h : r.id = row2.id
    · have hrw : r = wm := List.inj_on_of_nodup_map hN hr hwm (h.trans hid)
      simp only [if_pos h]
      rw [htg, hrw]
    · simp [h]
  rw [lastRowByTg_map work _ k htgp, hwml]
  simp [hid]

theorem processItems_map_idtg :
    ∀ (items : List (Val × CachedUser)) (work : List UserRow) (u : List Nat)
      (t : List CachedUser), (work.map (fun r => r.id)).Nodup →
      (processItems work u t items).1.map idtg = work.map idtg := by
  intro items
  induction items with
  | nil => intro work u t _; rfl
  | cons kc rest ih =>
    intro work u t hN
    show (processItems work u t (kc :: rest)).1.map idtg = work.map idtg
    rcases hwm : lastRowByTg work kc.1 with _ | wm
    · simp only [processItems, hwm]
      exact ih work u (t ++ [kc.2]) hN
    · obtain ⟨hwmm, _⟩ := lastRowByTg_mem hwm
      simp only [processItems, hwm]
      by_cases hch : (rowUpdateFromCached wm kc.2).2 = true
      · simp only [hch, if_true]
        have hmid := map_update_idtg work (rowUpdateFromCached wm kc.2).1
          (row2_idtg work wm kc.2 hN hwmm)
        have hN2 : ((work.map (fun r =>
            if r.id = (rowUpdateFromCached wm kc.2).1.id
            then (rowUpdateFromCached wm kc.2).1 else r)).map (fun r => r.id)).Nodup := by
          rw [ids_of_idtg hmid]
          exact hN
        rw [ih _ _ _ hN2, hmid]
      · simp only [Bool.not_eq_true] at hch
        simp only [hch, if_false, Bool.false_eq_true]
        exact ih work u t hN

theorem processItems_updIds_mono :
    ∀ (items : List (Val × CachedUser)) (work : List UserRow) (u : List Nat)
      (t : List CachedUser) (i : Nat), i ∈ u → i ∈ (processItems work u t items).2.1 := by
  intro items
  induction items with
  | nil => intro work u t i hi; exact hi
  | cons kc rest ih =>
    intro work u t i hi
    show i ∈ (processItems work u t (kc :: rest)).2.1
    rcases hwm : lastRowByTg work kc.1 with _ | wm
    · simp only [processItems, hwm]
      exact ih _ _ _ i hi
    · simp only [processItems, hwm]
      by_cases hch : (rowUpdateFromCached wm kc.2).2 = true
      · simp only [hch, if_true]
        exact ih _ _ _ i (by simp [mem_sAdd, hi])
      · simp only [Bool.not_eq_true] at hch
        simp only [hch, if_false, Bool.false_eq_true]
        exact ih _ _ _ i hi

theorem processItems_updIds_sub :
    ∀ (items : List (Val × CachedUser)) (work : List UserRow) (u : List Nat)
      (t : List CachedUser), (work.map (fun r => r.id)).Nodup →
      ∀ i ∈ (processItems work u t items).2.1, i ∈ u ∨ i ∈ work.map (fun r => r.id) := by
  intro items
  induction items with
  | nil => intro work u t _ i hi; exact Or.inl hi
  | cons kc rest ih =>
    intro work u t hN i hi
    rcases hwm : lastRowByTg work kc.1 with _ | wm
    · simp only [processItems, hwm] at hi
      exact ih work u _ hN i hi
    · obtain ⟨hwmm, _⟩ := lastRowByTg_mem hwm
      simp only [processItems, hwm] at hi
      by_cases hch : (rowUpdateFromCached wm kc.2).2 = true
      · simp only [hch, if_true] at hi
        have hmid := map_update_idtg work (rowUpdateFromCached wm kc.2).1
          (row2_idtg work wm kc.2 hN hwmm)
        have hN2 : ((work.map (fun r =>
            if r.id = (rowUpdateFromCached wm kc.2).1.id
            then (rowUpdateFromCached wm kc.2).1 else r)).map (fun r => r.id)).Nodup := by
          rw [ids_of_idtg hmid]
          exact hN
        rcases ih _ _ _ hN2 i hi with hu | hw
        · rcases (mem_sAdd _ _ _).mp hu with hu | rfl
          · exact Or.inl hu
          · refine Or.inr ?_
            rw [rowUpdate_id]
            exact List.mem_map_of_mem _ hwmm
        · rw [ids_of_idtg hmid] at hw
          exact Or.inr hw
      · simp only [Bool.not_eq_true] at hch
        simp only [hch, if_false, Bool.false_eq_true] at hi
        exact ih work u t hN i hi

theorem processItems_toCreate_mono :
    ∀ (items : List (Val × CachedUser)) (work : List UserRow) (u : List Nat)
      (t : List CachedUser) (c2 : CachedUser), c2 ∈ t →
      c2 ∈ (processItems work u t items).2.2 := by
  intro items
  induction items with
  | nil => intro work u t c2 hc2; exact hc2
  | cons kc rest ih =>
    intro work u t c2 hc2
    show c2 ∈ (processItems work u t (kc :: rest)).2.2
    rcases hwm : lastRowByTg work kc.1 with _ | wm
    · simp only [processItems, hwm]
      exact ih _ _ _ c2 (List.mem_append_left _ hc2)
    · simp only [processItems, hwm]
      by_cases hch : (rowUpdateFromCached wm kc.2).2 = true
      · simp only [hch, if_true]
        exact ih _ _ _ c2 hc2
      · simp only [Bool.not_eq_true] at hch
        simp only [hch, if_false, Bool.false_eq_true]
        exact ih _ _ _ c2 hc2

theorem processItems_toCreate :
    ∀ (items : List (Val × CachedUser)) (work : List UserRow) (u : List Nat)
      (t : List CachedUser), (work.map (fun r => r.id)).Nodup →
      ∀ c2 ∈ (processItems work u t items).2.2,
        c2 ∈ t ∨ ∃ kc ∈ items, c2 = kc.2 ∧ ∀ r ∈ work, r.tg_user_id ≠ kc.1 := by
  intro items
  induction items with
  | nil => intro work u t _ c2 hc2; exact Or.inl hc2
  | cons kc rest ih =>
    intro work u t hN c2 hc2
    rcases hwm : lastRowByTg work kc.1 with _ | wm
    · simp only [processItems, hwm] at hc2
      rcases ih _ _ _ hN c2 hc2 with ht | ⟨kc2, hkc2, he, hfact⟩
      · rcases List.mem_append.mp ht with ht | ht
        · exact Or.inl ht
        · rw [List.mem_singleton] at ht
          refine Or.inr ⟨kc, List.mem_cons_self _ _, ht, ?_⟩
          rw [← lastRowByTg_eq_none_iff]
          exact hwm
      · exact Or.inr ⟨kc2, List.mem_cons_of_mem _ hkc2, he, hfact⟩
    · obtain ⟨hwmm, _⟩ := lastRowByTg_mem hwm
      simp only [processItems, hwm] at hc2
      by_cases hch : (rowUpdateFromCached wm kc.2).2 = true
      · simp only [hch, if_true] at hc2
        have hmid := map_update_idtg work (rowUpdateFromCached wm kc.2).1
          (row2_idtg work wm kc.2 hN hwmm)
        have hN2 : ((work.map (fun r =>
            if r.id = (rowUpdateFromCached wm kc.2).1.id
            then (rowUpdateFromCached wm kc.2).1 else r)).map (fun r => r.id)).Nodup := by
          rw [ids_of_idtg hmid]
          exact hN
        rcases ih _ _ _ hN2 c2 hc2 with ht | ⟨kc2, hkc2, he, hfact⟩
        · exact Or.inl ht
        · refine Or.inr ⟨kc2, List.mem_cons_of_mem _ hkc2, he, ?_⟩
          rw [not_tg_mem_iff]
          rw [← tgs_of_idtg hmid]
          rw [← not_tg_mem_iff]
          exact hfact
      · simp only [Bool.not_eq_true] at hch
        simp only [hch, if_false, Bool.false_eq_true] at hc2
        rcases ih _ _ _ hN c2 hc2 with ht | ⟨kc2, hkc2, he, hfact⟩
        · exact Or.inl ht
        · exact Or.inr ⟨kc2, List.mem_cons_of_mem _ hkc2, he, hfact⟩

theorem processItems_frame_at_key :
    ∀ (items : List (Val × CachedUser)) (work : List UserRow) (u : List Nat)
      (t : List CachedUser) (k0 : Val), (work.map (fun r => r.id)).Nodup →
      (∀ kc ∈ items, kc.1 ≠ k0) →
      lastRowByTg (processItems work u t items).1 k0 = lastRowByTg work k0 := by
  intro items
  induction items with
  | nil => intro work u t k0 _ _; rfl
  | cons kc rest ih =>
    intro work u t k0 hN hkeys
    rcases hwm : lastRowByTg work kc.1 with _ | wm
    · simp only [processItems, hwm]
      exact ih _ _ _ k0 hN (fun kc2 h2 => hkeys kc2 (List.mem_cons_of_mem _ h2))
    · obtain ⟨hwmm, hwmtg⟩ := lastRowByTg_mem hwm
      simp only [processItems, hwm]
      by_cases hch : (rowUpdateFromCached wm kc.2).2 = true
      · simp only [hch, if_true]
        have hmid := map_update_idtg work (rowUpdateFromCached wm kc.2).1
          (row2_idtg work wm kc.2 hN hwmm)
        have hN2 : ((work.map (fun r =>
            if r.id = (rowUpdateFromCached wm kc.2).1.id
            then (rowUpdateFromCached wm kc.2).1 else r)).map (fun r => r.id)).Nodup := by
          rw [ids_of_idtg hmid]
          exact hN
        rw [ih _ _ _ k0 hN2 (fun kc2 h2 => hkeys kc2 (List.mem_cons_of_mem _ h2))]
        exact lastRowByTg_upd work wm _ k0 hN hwmm (rowUpdate_id wm kc.2)
          (rowUpdate_tg wm kc.2) (hwmtg ▸ hkeys kc (List.mem_cons_self _ _))
      · simp only [Bool.not_eq_true] at hch
        simp only [hch, if_false, Bool.false_eq_true]
        exact ih _ _ _ k0 hN (fun kc2 h2 => hkeys kc2 (List.mem_cons_of_mem _ h2))

theorem processItems_at_key_some :
    ∀ (items : List (Val × CachedUser)) (work : List UserRow) (u : List Nat)
      (t : List CachedUser) (k : Val) (c : CachedUser) (wm : UserRow),
      (work.map (fun r => r.id)).Nodup →
      ((items.map (fun kc => kc.1)).Nodup) →
      (∀ kc ∈ items, kc.2.tg_user_id = kc.1) →
      (k, c) ∈ items →
      lastRowByTg work k = some wm →
      ∃ w, lastRowByTg (processItems work u t items).1 k = some w ∧
        w ∈ (processItems work u t items).1 ∧
        w.id = wm.id ∧
        (∀ f ∈ persistedUserFields, w.colGet f = c.getattr f) ∧
        (w = wm ∨ w.id ∈ (processItems work u t items).2.1) ∧
        (∀ c2 ∈ (processItems work u t items).2.2, c2 ∈ t ∨ c2.tg_user_id ≠ k) := by
  intro items
  induction items with
  | nil => intro work u t k c wm _ _ _ hmem _; exact absurd hmem (List.not_mem_nil _)
  | cons kc rest ih =>
    intro work u t k c wm hN hkeys hKI hmem hwml
    obtain ⟨kc1, kc2⟩ := kc
    by_cases hk : kc1 = k
    · subst hk
      have hknotin : ∀ kc3 ∈ rest, kc3.1 ≠ kc1 := by
        have hkeys3 := hkeys
        rw [List.map_cons, List.nodup_cons] at hkeys3
        intro kc3 h3 he
        have hm : kc1 ∈ rest.map (fun kc => kc.1) := by
          rw [← he]
          exact List.mem_map_of_mem _ h3
        exact hkeys3.1 hm
      have hc2 : kc2 = c := by
        rcases List.mem_cons.mp hmem with heq | hmem2
        · exact (congrArg Prod.snd heq).symm
        · exact absurd rfl (hknotin (kc1, c) hmem2)
      subst hc2
      simp only [processItems, hwml]
      by_cases hch : (rowUpdateFromCached wm kc2).2 = true
      · simp only [hch, if_true]
        have hmid := map_update_idtg work (rowUpdateFromCached wm kc2).1
          (row2_idtg work wm kc2 hN (lastRowByTg_mem hwml).1)
        have hN2 : ((work.map (fun r =>
            if r.id = (rowUpdateFromCached wm kc2).1.id
            then (rowUpdateFromCached wm kc2).1 else r)).map (fun r => r.id)).Nodup := by
          rw [ids_of_idtg hmid]
          exact hN
        have hlast : lastRowByTg (work.map (fun r =>
            if r.id = (rowUpdateFromCached wm kc2).1.id
            then (rowUpdateFromCached wm kc2).1 else r)) kc1 =
            some (rowUpdateFromCached wm kc2).1 :=
          lastRowByTg_upd_self work wm _ kc1 hwml (rowUpdate_id wm kc2)
            (rowUpdate_tg wm kc2) hN
        have hframe := processItems_frame_at_key rest _
          (sAdd u (rowUpdateFromCached wm kc2).1.id) t kc1 hN2 hknotin
        rw [hlast] at hframe
        refine ⟨(rowUpdateFromCached wm kc2).1, hframe,
          (lastRowByTg_mem hframe).1, rowUpdate_id wm kc2,
          fun f hf => rowUpdate_colGet wm kc2 f hf, Or.inr ?_, ?_⟩
        · exact processItems_updIds_mono rest _ _ t _ (by simp [mem_sAdd])
        · intro c2 hc2
          rcases processItems_toCreate rest _ _ t hN2 c2 hc2 with ht | ⟨kc3, hkc3, he, _⟩
          · exact Or.inl ht
          · refine Or.inr ?_
            rw [he, hKI kc3 (List.mem_cons_of_mem _ hkc3)]
            exact hknotin kc3 hkc3
      · simp only [Bool.not_eq_true] at hch
        simp only [hch, if_false, Bool.false_eq_true]
        have hframe := processItems_frame_at_key rest work u t kc1 hN hknotin
        rw [hwml] at hframe
        refine ⟨wm, hframe, (lastRowByTg_mem hframe).1, rfl,
          fun f hf => rowUpdate_not_changed wm kc2 hch f hf, Or.inl rfl, ?_⟩
        intro c2 hc2
        rcases processItems_toCreate rest work u t hN c2 hc2 with ht | ⟨kc3, hkc3, he, _⟩
        · exact Or.inl ht
        · refine Or.inr ?_
          rw [he, hKI kc3 (List.mem_cons_of_mem _ hkc3)]
          exact hknotin kc3 hkc3
    · have hmem2 : (k, c) ∈ rest := by
        rcases List.mem_cons.mp hmem with heq | hmem2
        · exact absurd (congrArg Prod.fst heq).symm hk
        · exact hmem2
      have hkeys2 : ((rest.map (fun kc => kc.1)).Nodup) :=
        (List.nodup_cons.mp (by simpa using hkeys)).2
      have hKI2 : ∀ kc3 ∈ rest, kc3.2.tg_user_id = kc3.1 :=
        fun kc3 h3 => hKI kc3 (List.mem_cons_of_mem _ h3)
      rcases hwm2 : lastRowByTg work kc1 with _ | wm2
      · simp only [processItems, hwm2]
        obtain ⟨w, h1, h2, h3, h4, h5, h6⟩ :=
          ih work u (t ++ [kc2]) k c wm hN hkeys2 hKI2 hmem2 hwml
        refine ⟨w, h1, h2, h3, h4, h5, ?_⟩
        intro c2 hc2
        rcases h6 c2 hc2 with ht | hne
        · rcases List.mem_append.mp ht with ht | ht
          · exact Or.inl ht
          · rw [List.mem_singleton] at ht
            refine Or.inr ?_
            rw [ht, hKI (kc1, kc2) (List.mem_cons_self _ _)]
            exact hk
        · exact Or.inr hne
      · obtain ⟨hwm2m, hwm2tg⟩ := lastRowByTg_mem hwm2
        simp only [processItems, hwm2]
        by_cases hch : (rowUpdateFromCached wm2 kc2).2 = true
        · simp only [hch, if_true]
          have hmid := map_update_idtg work (rowUpdateFromCached wm2 kc2).1
            (row2_idtg work wm2 kc2 hN hwm2m)
          have hN2 : ((work.map (fun r =>
              if r.id = (rowUpdateFromCached wm2 kc2).1.id
              then (rowUpdateFromCached wm2 kc2).1 else r)).map (fun r => r.id)).Nodup := by
            rw [ids_of_idtg hmid]
            exact hN
          have hlast : lastRowByTg (work.map (fun r =>
              if r.id = (rowUpdateFromCached wm2 kc2).1.id
              then (rowUpdateFromCached wm2 kc2).1 else r)) k = some wm := by
            rw [lastRowByTg_upd work wm2 _ k hN hwm2m (rowUpdate_id wm2 kc2)
              (rowUpdate_tg wm2 kc2) (hwm2tg ▸ hk)]
            exact hwml
          exact ih _ _ t k c wm hN2 hkeys2 hKI2 hmem2 hlast
        · simp only [Bool.not_eq_true] at hch
          simp only [hch, if_false, Bool.false_eq_true]
          exact ih work u t k c wm hN hkeys2 hKI2 hmem2 hwml

theorem processItems_at_key_none :
    ∀ (items : List (Val × CachedUser)) (work : List UserRow) (u : List Nat)
      (t : List CachedUser) (k : Val) (c : CachedUser),
      (work.map (fun r => r.id)).Nodup →
      ((items.map (fun kc => kc.1)).Nodup) →
      (∀ kc ∈ items, kc.2.tg_user_id = kc.1) →
      (k, c) ∈ items →
      lastRowByTg work k = none →
      lastRowByTg (processItems work u t items).1 k = none ∧
        c ∈ (processItems work u t items).2.2 ∧
        (∀ c2 ∈ (processItems work u t items).2.2,
          c2 ∈ t ∨ c2 = c ∨ c2.tg_user_id ≠ k) := by
  intro items
  induction items with
  | nil => intro work u t k c _ _ _ hmem _; exact absurd hmem (List.not_mem_nil _)
  | cons kc rest ih =>
    intro work u t k c hN hkeys hKI hmem hwml
    obtain ⟨kc1, kc2⟩ := kc
    by_cases hk : kc1 = k
    · subst hk
      have hknotin : ∀ kc3 ∈ rest, kc3.1 ≠ kc1 := by
        have hkeys3 := hkeys
        rw [List.map_cons, List.nodup_cons] at hkeys3
        intro kc3 h3 he
        have hm : kc1 ∈ rest.map (fun kc => kc.1) := by
          rw [← he]
          exact List.mem_map_of_mem _ h3
        exact hkeys3.1 hm
      have hc2 : kc2 = c := by
        rcases List.mem_cons.mp hmem with heq | hmem2
        · exact (congrArg Prod.snd heq).symm
        · exact absurd rfl (hknotin (kc1, c) hmem2)
      subst hc2
      simp only [processItems, hwml]
      have hframe := processItems_frame_at_key rest work u (t ++ [kc2]) kc1 hN hknotin
      rw [hwml] at hframe
      refine ⟨hframe, processItems_toCreate_mono rest work u _ kc2
        (List.mem_append_right _ (List.mem_singleton_self _)), ?_⟩
      intro c2 hc2
      rcases processItems_toCreate rest work u _ hN c2 hc2 with ht | ⟨kc3, hkc3, he, _⟩
      · rcases List.mem_append.mp ht with ht | ht
        · exact Or.inl ht
        · rw [List.mem_singleton] at ht
          exact Or.inr (Or.inl ht)
      · refine Or.inr (Or.inr ?_)
        rw [he, hKI kc3 (List.mem_cons_of_mem _ hkc3)]
        exact hknotin kc3 hkc3
    · have hmem2 : (k, c) ∈ rest := by
        rcases List.mem_cons.mp hmem with heq | hmem2
        · exact absurd (congrArg Prod.fst heq).symm hk
        · exact hmem2
      have hkeys2 : ((rest.map (fun kc => kc.1)).Nodup) :=
        (List.nodup_cons.mp (by simpa using hkeys)).2
      have hKI2 : ∀ kc3 ∈ rest, kc3.2.tg_user_id = kc3.1 :=
        fun kc3 h3 => hKI kc3 (List.mem_cons_of_mem _ h3)
      rcases hwm2 : lastRowByTg work kc1 with _ | wm2
      · simp only [processItems, hwm2]
        obtain ⟨h1, h2, h3⟩ := ih work u (t ++ [kc2]) k c hN hkeys2 hKI2 hmem2 hwml
        refine ⟨h1, h2, ?_⟩
        intro c2 hc2
        rcases h3 c2 hc2 with ht | hrest
        · rcases List.mem_append.mp ht with ht | ht
          · exact Or.inl ht
          · rw [List.mem_singleton] at ht
            refine Or.inr (Or.inr ?_)
            rw [ht, hKI (kc1, kc2) (List.mem_cons_self _ _)]
            exact hk
        · exact Or.inr hrest
      · obtain ⟨hwm2m, hwm2tg⟩ := lastRowByTg_mem hwm2
        simp only [processItems, hwm2]
        by_cases hch : (rowUpdateFromCached wm2 kc2).2 = true
        · simp only [hch, if_true]
          have hmid := map_update_idtg work (rowUpdateFromCached wm2 kc2).1
            (row2_idtg work wm2 kc2 hN hwm2m)
          have hN2 : ((work.map (fun r =>
              if r.id = (rowUpdateFromCached wm2 kc2).1.id
              then (rowUpdateFromCached wm2 kc2).1 else r)).map (fun r => r.id)).Nodup := by
            rw [ids_of_idtg hmid]
            exact hN
          have hlast : lastRowByTg (work.map (fun r =>
              if r.id = (rowUpdateFromCached wm2 kc2).1.id
              then (rowUpdateFromCached wm2 kc2).1 else r)) k = none := by
            rw [lastRowByTg_upd work wm2 _ k hN hwm2m (rowUpdate_id wm2 kc2)
              (rowUpdate_tg wm2 kc2) (hwm2tg ▸ hk)]
            exact hwml
          exact ih _ _ t k c hN2 hkeys2 hKI2 hmem2 hlast
        · simp only [Bool.not_eq_true] at hch
          simp only [hch, if_false, Bool.false_eq_true]
          exact ih work u t k c hN hkeys2 hKI2 hmem2 hwml

theorem lastRowByTg_filter (rows : List UserRow) (p : UserRow → Bool) (k : Val)
    (hp : ∀ r ∈ rows, r.tg_user_id = k → p r = true) :
    lastRowByTg (rows.filter p) k = lastRowByTg rows k := by
  induction rows with
  | nil => rfl
  | cons r rest ih =>
    have ih2 := ih (fun r2 h2 => hp r2 (List.mem_cons_of_mem _ h2))
    by_cases hpr : p r = true
    · rw [List.filter_cons, if_pos hpr, lastRowByTg_cons, lastRowByTg_cons, ih2]
    · have hrk : r.tg_user_id ≠ k := fun he => hpr (hp r (List.mem_cons_self _ _) he)
      rw [List.filter_cons, if_neg hpr, ih2, lastRowByTg_cons]
      rcases lastRowByTg rest k with _ | x
      · rw [if_neg hrk]
      · rfl

theorem chunkAux_sublist (b : Nat) :
    ∀ (fuel : Nat) (l : List (Val × CachedUser)),
      ∀ bt ∈ chunkAux b fuel l, List.Sublist bt l := by
  intro fuel
  induction fuel with
  | zero =>
    intro l bt hbt
    rcases l with _ | ⟨x, xs⟩
    · exact absurd hbt (List.not_mem_nil _)
    · simp only [chunkAux, List.mem_singleton] at hbt
      subst hbt
      exact List.Sublist.refl _
  | succ fuel ih =>
    intro l bt hbt
    rcases l with _ | ⟨x, xs⟩
    · exact absurd hbt (List.not_mem_nil _)
    · simp only [chunkAux] at hbt
      rcases List.mem_cons.mp hbt with rfl | hbt2
      · exact List.Sublist.cons₂ x (List.take_sublist _ _)
      · exact ((ih _ bt hbt2).trans (List.drop_sublist _ _)).trans
          (List.sublist_cons_self x xs)

theorem chunkList_sublist (b : Nat) (l : List (Val × CachedUser)) :
    ∀ bt ∈ chunkList b l, List.Sublist bt l :=
  chunkAux_sublist b l.length l

theorem colSet_id (r : UserRow) (f : String) (v : Val) : (r.colSet f v).id = r.id := by
  simp only [UserRow.colSet, apply_ite UserRow.id, ite_self]

theorem foldl_colSet_id (ps : List (String × Val)) :
    ∀ r : UserRow, (ps.foldl (fun acc p => acc.colSet p.1 p.2) r).id = r.id := by
  induction ps with
  | nil => intro r; rfl
  | cons p rest ih => intro r; rw [List.foldl_cons, ih, colSet_id]

theorem getOrCreate_tg (st : UserStore) (k : Val) (d : List (String × Val)) :
    ((st.getOrCreate k d).1).tg_user_id = k := by
  rcases hfind : st.rows.find? (fun r => decide (r.tg_user_id = k)) with _ | r
  · simp only [UserStore.getOrCreate, hfind]
  · simp only [UserStore.getOrCreate, hfind]
    have hp := List.find?_some hfind
    exact of_decide_eq_true hp

theorem getOrCreate_store (st : UserStore) (k : Val) (d : List (String × Val)) :
    (st.getOrCreate k d).2.2 = st ∨
      ((st.getOrCreate k d).2.2.rows = st.rows ++ [(st.getOrCreate k d).1] ∧
       (st.getOrCreate k d).1.id = st.nextId ∧
       (st.getOrCreate k d).2.2.nextId = st.nextId + 1 ∧
       ∀ r ∈ st.rows, r.tg_user_id ≠ k) := by
  rcases hfind : st.rows.find? (fun r => decide (r.tg_user_id = k)) with _ | r
  · refine Or.inr ⟨?_, ?_, ?_, ?_⟩
    · simp only [UserStore.getOrCreate, hfind]
    · simp only [UserStore.getOrCreate, hfind]
      exact foldl_colSet_id d (baseUserRow st.nextId k)
    · simp only [UserStore.getOrCreate, hfind]
    · intro r hr he
      have hne := List.find?_eq_none.mp hfind r hr
      simp only [decide_eq_true_eq] at hne
      exact hne he
  · exact Or.inl (by simp only [UserStore.getOrCreate, hfind])

theorem getOrCreate_WF (st : UserStore) (k : Val) (d : List (String × Val))
    (hWF : UStoreWF st) : UStoreWF (st.getOrCreate k d).2.2 := by
  rcases getOrCreate_store st k d with he | ⟨hrows, hid, hnext, hnew⟩
  · rw [he]; exact hWF
  · obtain ⟨hids, htgs, hlt⟩ := hWF
    refine ⟨?_, ?_, ?_⟩
    · rw [hrows, List.map_append]
      refine List.Nodup.append hids (List.nodup_singleton _) ?_
      intro a ha hmem
      rw [List.map_singleton, List.mem_singleton] at hmem
      obtain ⟨r0, hr0, hid0⟩ := List.mem_map.mp ha
      exact absurd (hid0.trans (hmem.trans hid)) (Nat.ne_of_lt (hlt r0 hr0))
    · rw [hrows, List.map_append]
      refine List.Nodup.append htgs (List.nodup_singleton _) ?_
      intro a ha hmem
      rw [List.map_singleton, List.mem_singleton] at hmem
      obtain ⟨r0, hr0, htg0⟩ := List.mem_map.mp ha
      rw [hmem, getOrCreate_tg st k d] at htg0
      exact hnew r0 hr0 htg0
    · intro r hr
      rw [hrows] at hr
      rw [hnext]
      rcases List.mem_append.mp hr with h1 | h1
      · exact Nat.lt_succ_of_lt (hlt r h1)
      · rw [List.mem_singleton] at h1
        rw [h1, hid]
        exact Nat.lt_succ_self _

theorem persisted_mem_userFieldNames (f : String) (hf : f ∈ persistedUserFields) :
    f ∈ userFieldNames := by
  simp only [persistedUserFields, List.mem_cons, List.not_mem_nil, or_false] at hf
  rcases hf with rfl | rfl | rfl | rfl | rfl | rfl | rfl | rfl | rfl
  all_goals simp [userFieldNames]

theorem ensureCached_WF (s : UState) (st : UserStore) (k : Val)
    (d : List (String × Val)) (hWF : UStoreWF st) :
    UStoreWF (ensureCached s st k d).2.1 := by
  by_cases h : (alGet s.cache k).isSome
  · simpa [ensureCached, h] using hWF
  · simp only [ensureCached, h, if_false, Bool.false_eq_true]
    rcases hgc : st.getOrCreate k
        (d.foldl (fun acc p => alInsert acc p.1 p.2) DEFAULT_USER) with ⟨row, fl, st1⟩
    rw [hgc]
    show UStoreWF st1
    have hst1 : st1 = (st.getOrCreate k
        (d.foldl (fun acc p => alInsert acc p.1 p.2) DEFAULT_USER)).2.2 := by rw [hgc]
    rw [hst1]
    exact getOrCreate_WF st k _ hWF

theorem ensureCached_KI (s : UState) (st : UserStore) (k : Val)
    (d : List (String × Val)) (hKI : KeyIntegrity s) :
    KeyIntegrity (ensureCached s st k d).1 := by
  by_cases h : (alGet s.cache k).isSome
  · simpa [ensureCached, h] using hKI
  · simp only [ensureCached, h, if_false, Bool.false_eq_true]
    rcases hgc : st.getOrCreate k
        (d.foldl (fun acc p => alInsert acc p.1 p.2) DEFAULT_USER) with ⟨row, fl, st1⟩
    rw [hgc]
    intro k2 c2 hc2
    have hrowtg : row.tg_user_id = k := by
      have h2 := getOrCreate_tg st k (d.foldl (fun acc p => alInsert acc p.1 p.2) DEFAULT_USER)
      rw [hgc] at h2
      exact h2
    have hc2' : alGet (alInsert s.cache k (cachedOfRow row)) k2 = some c2 := hc2
    rw [alGet_alInsert] at hc2'
    by_cases hk2 : k = k2
    · rw [if_pos hk2] at hc2'
      have hc : cachedOfRow row = c2 := by injection hc2'
      rw [← hc, ← hk2]
      exact hrowtg
    · rw [if_neg hk2] at hc2'
      exact hKI k2 c2 hc2'

theorem edit_spec (s : UState) (st : UserStore) (k : Val) (f : String) (v : Val)
    (hf : f ∈ persistedUserFields) (hdN : s.dirty.Nodup)
    (hKI : KeyIntegrity s) (hWF : UStoreWF st) :
    ∃ c1 : CachedUser,
      alGet (edit s st k [(f, v)]).1.cache k = some c1 ∧
      c1.getattr f = v ∧
      k ∈ (edit s st k [(f, v)]).1.dirty ∧
      (edit s st k [(f, v)]).1.dirty.Nodup ∧
      KeyIntegrity (edit s st k [(f, v)]).1 ∧
      UStoreWF (edit s st k [(f, v)]).2.1 := by
  obtain ⟨c, hc⟩ := Option.isSome_iff_exists.mp (ensureCached_cache_isSome s st k [(f, v)])
  have hstate := edit_state s st k [(f, v)] c hc
  have hpf : f ∈ userFieldNames := persisted_mem_userFieldNames f hf
  have hKI1 : KeyIntegrity (ensureCached s st k [(f, v)]).1 := ensureCached_KI s st k _ hKI
  have hctg : c.tg_user_id = k := hKI1 k c hc
  refine ⟨editFields c [(f, v)], ?_, ?_, ?_, ?_, ?_, ?_⟩
  · rw [hstate]
    exact alGet_alInsert_self _ _ _
  · rw [editFields_single c f v hpf]
    exact getattr_setattr_self c f v hpf
  · rw [hstate]
    exact (mem_sAdd _ _ _).mpr (Or.inr rfl)
  · rw [hstate]
    exact sAdd_nodup (by rw [ensureCached_dirty]; exact hdN) k
  · rw [hstate]
    intro k2 c2 hc2
    have hc2' : alGet (alInsert (ensureCached s st k [(f, v)]).1.cache k
        (editFields c [(f, v)])) k2 = some c2 := hc2
    rw [alGet_alInsert] at hc2'
    by_cases hk2 : k = k2
    · rw [if_pos hk2] at hc2'
      have he : editFields c [(f, v)] = c2 := by injection hc2'
      rw [← he, editFields_single c f v hpf, setattr_tg c f v hf, hctg]
      exact hk2
    · rw [if_neg hk2] at hc2'
      exact hKI1 k2 c2 hc2'
  · rw [edit_store]
    exact ensureCached_WF s st k [(f, v)] hWF

theorem processItems_toCreate_sub :
    ∀ (items : List (Val × CachedUser)) (work : List UserRow) (u : List Nat)
      (t : List CachedUser), (work.map (fun r => r.id)).Nodup →
      ∃ sub : List (Val × CachedUser), List.Sublist sub items ∧
        (processItems work u t items).2.2 = t ++ sub.map (fun kc => kc.2) ∧
        ∀ kc ∈ sub, ∀ r ∈ work, r.tg_user_id ≠ kc.1 := by
  intro items
  induction items with
  | nil =>
    intro work u t _
    exact ⟨[], List.nil_sublist _, by simp [processItems],
      fun kc hkc => absurd hkc (List.not_mem_nil _)⟩
  | cons kc rest ih =>
    intro work u t hN
    rcases hwm : lastRowByTg work kc.1 with _ | wm
    · obtain ⟨sub, hsubl, heq, hfact⟩ := ih work u (t ++ [kc.2]) hN
      refine ⟨kc :: sub, List.Sublist.cons₂ kc hsubl, ?_, ?_⟩
      · rw [show (processItems work u t (kc :: rest)).2.2 =
            (processItems work u (t ++ [kc.2]) rest).2.2 from by
            simp only [processItems, hwm], heq]
        simp
      · intro kc2 hkc2
        rcases List.mem_cons.mp hkc2 with rfl | h2
        · rw [← lastRowByTg_eq_none_iff]
          exact hwm
        · exact hfact kc2 h2
    · obtain ⟨hwmm, _⟩ := lastRowByTg_mem hwm
      by_cases hch : (rowUpdateFromCached wm kc.2).2 = true
      · have hmid := map_update_idtg work (rowUpdateFromCached wm kc.2).1
          (row2_idtg work wm kc.2 hN hwmm)
        have hN2 : ((work.map (fun r =>
            if r.id = (rowUpdateFromCached wm kc.2).1.id
            then (rowUpdateFromCached wm kc.2).1 else r)).map (fun r => r.id)).Nodup := by
          rw [ids_of_idtg hmid]
          exact hN
        obtain ⟨sub, hsubl, heq, hfact⟩ := ih _ (sAdd u (rowUpdateFromCached wm kc.2).1.id) t hN2
        refine ⟨sub, List.Sublist.cons kc hsubl, ?_, ?_⟩
        · rw [show (processItems work u t (kc :: rest)).2.2 =
              (processItems (work.map (fun r =>
                if r.id = (rowUpdateFromCached wm kc.2).1.id
                then (rowUpdateFromCached wm kc.2).1 else r))
                (sAdd u (rowUpdateFromCached wm kc.2).1.id) t rest).2.2 from by
              simp only [processItems, hwm, hch, if_true], heq]
        · intro kc2 hkc2
          rw [not_tg_mem_iff]
          rw [← tgs_of_idtg hmid]
          rw [← not_tg_mem_iff]
          exact hfact kc2 hkc2
      · obtain ⟨sub, hsubl, heq, hfact⟩ := ih work u t hN
        refine ⟨sub, List.Sublist.cons kc hsubl, ?_, hfact⟩
        rw [show (processItems work u t (kc :: rest)).2.2 =
            (processItems work u t rest).2.2 from by
            simp only [Bool.not_eq_true] at hch
            simp only [processItems, hwm, hch, if_false, Bool.false_eq_true], heq]

theorem bulkCreateRows_exists :
    ∀ (cs : List CachedUser) (st : UserStore),
      ∃ new : List UserRow,
        (bulkCreateRows st cs).rows = st.rows ++ new ∧
        st.nextId ≤ (bulkCreateRows st cs).nextId ∧
        (∀ r ∈ new, ∃ c ∈ cs, ∃ i, r = rowOfCached i c) ∧
        (∀ r ∈ new, st.nextId ≤ r.id ∧ r.id < (bulkCreateRows st cs).nextId) ∧
        ((new.map (fun r => r.id)).Nodup) ∧
        new.map (fun r => r.tg_user_id) = cs.map (fun c => c.tg_user_id) := by
  intro cs
  induction cs with
  | nil =>
    intro st
    exact ⟨[], by simp [bulkCreateRows], Nat.le_refl _,
      fun r hr => absurd hr (List.not_mem_nil _),
      fun r hr => absurd hr (List.not_mem_nil _), List.nodup_nil, rfl⟩
  | cons c cs ih =>
    intro st
    have hstep : bulkCreateRows st (c :: cs) =
        bulkCreateRows ⟨st.rows ++ [rowOfCached st.nextId c], st.nextId + 1⟩ cs := rfl
    obtain ⟨new2, h1, h2, h3, h4, h5, h6⟩ :=
      ih ⟨st.rows ++ [rowOfCached st.nextId c], st.nextId + 1⟩
    refine ⟨rowOfCached st.nextId c :: new2, ?_, ?_, ?_, ?_, ?_, ?_⟩
    · rw [hstep, h1, List.append_assoc]
      rfl
    · rw [hstep]
      exact Nat.le_trans (Nat.le_succ _) h2
    · intro r hr
      rcases List.mem_cons.mp hr with rfl | hr2
      · exact ⟨c, List.mem_cons_self _ _, st.nextId, rfl⟩
      · obtain ⟨c2, hc2, i, he⟩ := h3 r hr2
        exact ⟨c2, List.mem_cons_of_mem _ hc2, i, he⟩
    · intro r hr
      rw [hstep]
      rcases List.mem_cons.mp hr with rfl | hr2
      · exact ⟨Nat.le_refl _, Nat.lt_of_lt_of_le (Nat.lt_succ_self _) h2⟩
      · exact ⟨Nat.le_trans (Nat.le_succ _) (h4 r hr2).1, (h4 r hr2).2⟩
    · rw [List.map_cons]
      refine List.nodup_cons.mpr ⟨?_, h5⟩
      intro hmem
      obtain ⟨r2, hr2, hid2⟩ := List.mem_map.mp hmem
      have := (h4 r2 hr2).1
      rw [hid2] at this
      exact absurd this (by simp [rowOfCached])
    · simp only [List.map_cons, h6, rowOfCached_tg]

theorem commit_row_idtg (st : UserStore) (work : List UserRow) (updIds : List Nat)
    (hids : (st.rows.map (fun r => r.id)).Nodup)
    (hidtg : ∀ w ∈ work, ∃ r2 ∈ st.rows, idtg w = idtg r2) :
    ∀ r ∈ st.rows,
      idtg (if r.id ∈ updIds then
        match work.find? (fun w => decide (w.id = r.id)) with
        | some w => w
        | none => r
      else r) = idtg r := by
  intro r hr
  by_cases hin : r.id ∈ updIds
  · rw [if_pos hin]
    rcases hfind : work.find? (fun w => decide (w.id = r.id)) with _ | w
    · rw [hfind]
    · rw [hfind]
      show idtg w = idtg r
      have hwmem := List.mem_of_find?_eq_some hfind
      have hp := List.find?_some hfind
      have hwid : w.id = r.id := of_decide_eq_true hp
      obtain ⟨r2, hr2, he⟩ := hidtg w hwmem
      have hid2 : r2.id = r.id := by
        have hfst := congrArg Prod.fst he
        simp only [idtg] at hfst
        rw [← hfst]
        exact hwid
      have hr2r : r2 = r := List.inj_on_of_nodup_map hids hr2 hr hid2
      rw [he, hr2r]
  · rw [if_neg hin]

set_option maxHeartbeats 3200000 in
theorem syncBatchStore_spec (st : UserStore) (batch : List (Val × CachedUser))
    (hWF : UStoreWF st) (hkeys : ((batch.map (fun kc => kc.1)).Nodup))
    (hKI : ∀ kc ∈ batch, kc.2.tg_user_id = kc.1) :
    UStoreWF (syncBatchStore st batch) ∧
    (∀ k0, k0 ∉ batch.map (fun kc => kc.1) →
      lastRowByTg (syncBatchStore st batch).rows k0 = lastRowByTg st.rows k0) ∧
    (∀ kc ∈ batch, ∃ w, lastRowByTg (syncBatchStore st batch).rows kc.1 = some w ∧
      ∀ f ∈ persistedUserFields, w.colGet f = kc.2.getattr f) := by
  obtain ⟨hids, htgs, hlt⟩ := hWF
  obtain ⟨fetched, hfetch⟩ : ∃ l,
      st.rows.filter (fun r => decide (r.tg_user_id ∈ batch.map (fun kc => kc.1))) = l :=
    ⟨_, rfl⟩
  rcases htrip : processItems fetched [] [] batch with ⟨work, updIds, toCreate⟩
  have hssb : syncBatchStore st batch =
      (if toCreate = [] then
        (if updIds = [] then st
         else { st with rows := st.rows.map (fun r =>
           if r.id ∈ updIds then
             match work.find? (fun w => decide (w.id = r.id)) with
             | some w => w
             | none => r
           else r) })
       else bulkCreateRows
        (if updIds = [] then st
         else { st with rows := st.rows.map (fun r =>
           if r.id ∈ updIds then
             match work.find? (fun w => decide (w.id = r.id)) with
             | some w => w
             | none => r
           else r) }) toCreate) := by
    simp only [syncBatchStore, hfetch, htrip]
  obtain ⟨st1, hst1⟩ : ∃ s1, (if updIds = [] then st
      else { st with rows := st.rows.map (fun r =>
        if r.id ∈ updIds then
          match work.find? (fun w => decide (w.id = r.id)) with
          | some w => w
          | none => r
        else r) }) = s1 := ⟨_, rfl⟩
  rw [hst1] at hssb
  have hfsub : List.Sublist fetched st.rows := by
    rw [← hfetch]
    exact List.filter_sublist _
  have hfN : ((fetched.map (fun r => r.id)).Nodup) := (hfsub.map _).nodup hids
  have hfmem : ∀ r ∈ fetched, r ∈ st.rows := fun r hr => hfsub.subset hr
  have hfmem_of : ∀ r ∈ st.rows, r.tg_user_id ∈ batch.map (fun kc => kc.1) →
      r ∈ fetched := by
    intro r hr hin
    rw [← hfetch]
    exact List.mem_filter.mpr ⟨hr, by simpa using hin⟩
  have hlfilter : ∀ k, k ∈ batch.map (fun kc => kc.1) →
      lastRowByTg fetched k = lastRowByTg st.rows k := by
    intro k hk
    rw [← hfetch]
    refine lastRowByTg_filter st.rows _ k ?_
    intro r _ he
    show decide (r.tg_user_id ∈ batch.map (fun kc => kc.1)) = true
    rw [he]
    exact decide_eq_true hk
  have hwidtg : work.map idtg = fetched.map idtg := by
    have h := processItems_map_idtg batch fetched [] [] hfN
    rw [htrip] at h
    exact h
  have hwN : ((work.map (fun r => r.id)).Nodup) := by
    rw [ids_of_idtg hwidtg]
    exact hfN
  have hupdIds : ∀ i ∈ updIds, i ∈ fetched.map (fun r => r.id) := by
    intro i hi
    rcases processItems_updIds_sub batch fetched [] [] hfN i
        (by rw [htrip]; exact hi) with h2 | h2
    · exact absurd h2 (List.not_mem_nil _)
    · exact h2
  obtain ⟨sub, hsubl, hteq, hsubfact⟩ := processItems_toCreate_sub batch fetched [] [] hfN
  rw [htrip] at hteq
  have hteq2 : toCreate = sub.map (fun kc => kc.2) := by simpa using hteq
  have htct : toCreate.map (fun c => c.tg_user_id) = sub.map (fun kc => kc.1) := by
    rw [hteq2, List.map_map]
    exact List.map_congr_left (fun kc hkc => hKI kc (hsubl.subset hkc))
  have hsubkeys : List.Sublist (sub.map (fun kc => kc.1)) (batch.map (fun kc => kc.1)) :=
    hsubl.map _
  have hsubKN : ((sub.map (fun kc => kc.1)).Nodup) := hsubkeys.nodup hkeys
  have hnost : ∀ kc ∈ sub, ∀ r ∈ st.rows, r.tg_user_id ≠ kc.1 := by
    intro kc hkc r hr he
    refine hsubfact kc hkc r (hfmem_of r hr ?_) he
    rw [he]
    exact List.mem_map_of_mem _ (hsubl.subset hkc)
  have hwst : ∀ w ∈ work, ∃ r2 ∈ st.rows, idtg w = idtg r2 := by
    intro w hw
    have hmm : idtg w ∈ fetched.map idtg := by
      rw [← hwidtg]
      exact List.mem_map_of_mem _ hw
    obtain ⟨rf, hrf, he⟩ := List.mem_map.mp hmm
    exact ⟨rf, hfmem rf hrf, he.symm⟩
  have htgp : ∀ r ∈ st.rows, ((fun r =>
      if r.id ∈ updIds then
        match work.find? (fun w => decide (w.id = r.id)) with
        | some w => w
        | none => r
      else r) r).tg_user_id = r.tg_user_id := by
    intro r hr
    have h := congrArg Prod.snd (commit_row_idtg st work updIds hids hwst r hr)
    simpa [idtg] using h
  have hst1idtg : st1.rows.map idtg = st.rows.map idtg := by
    by_cases hu : updIds = []
    · rw [if_pos hu] at hst1
      rw [← hst1]
    · rw [if_neg hu] at hst1
      rw [← hst1]
      show (st.rows.map _).map idtg = st.rows.map idtg
      rw [List.map_map]
      exact List.map_congr_left (commit_row_idtg st work updIds hids hwst)
  have hst1ids : st1.rows.map (fun r => r.id) = st.rows.map (fun r => r.id) :=
    ids_of_idtg hst1idtg
  have hst1tgs : st1.rows.map (fun r => r.tg_user_id) = st.rows.map (fun r => r.tg_user_id) :=
    tgs_of_idtg hst1idtg
  have hst1next : st1.nextId = st.nextId := by
    by_cases hu : updIds = []
    · rw [if_pos hu] at hst1
      rw [← hst1]
    · rw [if_neg hu] at hst1
      rw [← hst1]
  have hst1WF : UStoreWF st1 := by
    refine ⟨?_, ?_, ?_⟩
    · rw [hst1ids]
      exact hids
    · rw [hst1tgs]
      exact htgs
    · intro r hr
      have hin : r.id ∈ st.rows.map (fun r => r.id) := by
        rw [← hst1ids]
        exact List.mem_map_of_mem _ hr
      obtain ⟨r2, hr2, hid2⟩ := List.mem_map.mp hin
      rw [hst1next, ← hid2]
      exact hlt r2 hr2
  have hst1_frame : ∀ k0, k0 ∉ batch.map (fun kc => kc.1) →
      lastRowByTg st1.rows k0 = lastRowByTg st.rows k0 := by
    intro k0 hk0
    by_cases hu : updIds = []
    · rw [if_pos hu] at hst1
      rw [← hst1]
    · rw [if_neg hu] at hst1
      rw [← hst1]
      show lastRowByTg (st.rows.map _) k0 = lastRowByTg st.rows k0
      rw [lastRowByTg_map st.rows _ k0 htgp]
      rcases hl : lastRowByTg st.rows k0 with _ | r0
      · rfl
      · obtain ⟨hr0, hr0tg⟩ := lastRowByTg_mem hl
        have hnotin : r0.id ∉ updIds := by
          intro hin
          obtain ⟨rf, hrf, hfid⟩ := List.mem_map.mp (hupdIds r0.id hin)
          have hrfid : rf = r0 := List.inj_on_of_nodup_map hids (hfmem rf hrf) hr0 hfid
          have hmf : rf ∈ st.rows.filter
              (fun r => decide (r.tg_user_id ∈ batch.map (fun kc => kc.1))) := by
            rw [hfetch]
            exact hrf
          have hbk := (List.mem_filter.mp hmf).2
          simp only [decide_eq_true_eq] at hbk
          rw [hrfid, hr0tg] at hbk
          exact hk0 hbk
        show some (if r0.id ∈ updIds then
            match work.find? (fun w => decide (w.id = r0.id)) with
            | some w => w
            | none => r0
          else r0) = some r0
        rw [if_neg hnotin]
  have hst1_at : ∀ (k : Val) (wm w : UserRow), lastRowByTg st.rows k = some wm →
      w ∈ work → w.id = wm.id → (w = wm ∨ w.id ∈ updIds) →
      lastRowByTg st1.rows k = some w := by
    intro k wm w hl hwmem hwid hwor
    by_cases hu : updIds = []
    · rw [if_pos hu] at hst1
      rw [← hst1, hl]
      rcases hwor with rfl | hwin
      · rfl
      · rw [hu] at hwin
        exact absurd hwin (List.not_mem_nil _)
    · rw [if_neg hu] at hst1
      rw [← hst1]
      show lastRowByTg (st.rows.map _) k = some w
      rw [lastRowByTg_map st.rows _ k htgp, hl]
      show some (if wm.id ∈ updIds then
          match work.find? (fun w2 => decide (w2.id = wm.id)) with
          | some w2 => w2
          | none => wm
        else wm) = some w
      by_cases hwin : wm.id ∈ updIds
      · rw [if_pos hwin]
        have hfindw : work.find? (fun w2 => decide (w2.id = wm.id)) = some w := by
          rw [← hwid]
          exact find?_by_id_unique hwN hwmem
        rw [hfindw]
      · rw [if_neg hwin]
        rcases hwor with rfl | hwin2
        · rfl
        · rw [hwid] at hwin2
          exact absurd hwin2 hwin
  have hst1_none : ∀ k, lastRowByTg st.rows k = none → lastRowByTg st1.rows k = none := by
    intro k hl
    by_cases hu : updIds = []
    · rw [if_pos hu] at hst1
      rw [← hst1]
      exact hl
    · rw [if_neg hu] at hst1
      rw [← hst1]
      show lastRowByTg (st.rows.map _) k = none
      rw [lastRowByTg_map st.rows _ k htgp, hl]
      rfl
  rw [hssb]
  by_cases ht : toCreate = []
  · rw [if_pos ht]
    refine ⟨hst1WF, fun k0 hk0 => hst1_frame k0 hk0, ?_⟩
    intro kc hkc
    rcases hcase : lastRowByTg st.rows kc.1 with _ | wm
    · have hfnone : lastRowByTg fetched kc.1 = none := by
        rw [hlfilter kc.1 (List.mem_map_of_mem _ hkc)]
        exact hcase
      have hpack := processItems_at_key_none batch fetched [] [] kc.1 kc.2 hfN hkeys hKI
        (by exact hkc) hfnone
      have hc2 := hpack.2.1
      rw [htrip] at hc2
      have hc3 : kc.2 ∈ toCreate := hc2
      rw [ht] at hc3
      exact absurd hc3 (List.not_mem_nil _)
    · have hfsome : lastRowByTg fetched kc.1 = some wm := by
        rw [hlfilter kc.1 (List.mem_map_of_mem _ hkc)]
        exact hcase
      obtain ⟨w, hw1, hw2, hw3, hw4, hw5, hw6⟩ := processItems_at_key_some batch fetched
        [] [] kc.1 kc.2 wm hfN hkeys hKI (by exact hkc) hfsome
      have hw2' : w ∈ work := by
        rw [htrip] at hw2
        exact hw2
      have hw5' : w = wm ∨ w.id ∈ updIds := by
        rw [htrip] at hw5
        exact hw5
      exact ⟨w, hst1_at kc.1 wm w hcase hw2' hw3 hw5', hw4⟩
  · rw [if_neg ht]
    obtain ⟨new2, hn1, hn2, hn3, hn4, hn5, hn6⟩ := bulkCreateRows_exists toCreate st1
    have hntgs : new2.map (fun r => r.tg_user_id) = sub.map (fun kc => kc.1) := by
      rw [hn6, htct]
    have hWF2 : UStoreWF (bulkCreateRows st1 toCreate) := by
      refine ⟨?_, ?_, ?_⟩
      · rw [hn1, List.map_append]
        refine List.Nodup.append ?_ hn5 ?_
        · rw [hst1ids]
          exact hids
        · intro a ha hmem
          obtain ⟨r1, hr1, hid1⟩ := List.mem_map.mp ha
          obtain ⟨r2, hr2, hid2⟩ := List.mem_map.mp hmem
          have hb1 : r1.id < st1.nextId := hst1WF.2.2 r1 hr1
          have hb2 : st1.nextId ≤ r2.id := (hn4 r2 hr2).1
          rw [hid1] at hb1
          rw [hid2] at hb2
          omega
      · rw [hn1, List.map_append]
        refine List.Nodup.append ?_ ?_ ?_
        · rw [hst1tgs]
          exact htgs
        · rw [hntgs]
          exact hsubKN
        · intro a ha hmem
          rw [hntgs] at hmem
          obtain ⟨kc, hkc, hkca⟩ := List.mem_map.mp hmem
          rw [hst1tgs] at ha
          obtain ⟨r1, hr1, htg1⟩ := List.mem_map.mp ha
          exact hnost kc hkc r1 hr1 (htg1.trans hkca.symm)
      · intro r hr
        rw [hn1] at hr
        rcases List.mem_append.mp hr with h1 | h1
        · exact Nat.lt_of_lt_of_le (hst1WF.2.2 r h1) hn2
        · exact (hn4 r h1).2
    have hframe2 : ∀ k0, k0 ∉ batch.map (fun kc => kc.1) →
        lastRowByTg (bulkCreateRows st1 toCreate).rows k0 = lastRowByTg st.rows k0 := by
      intro k0 hk0
      rw [hn1, lastRowByTg_append]
      have hnone : lastRowByTg new2 k0 = none := by
        rw [lastRowByTg_eq_none_iff]
        intro r hr he
        have hin : r.tg_user_id ∈ sub.map (fun kc => kc.1) := by
          rw [← hntgs]
          exact List.mem_map_of_mem _ hr
        rw [he] at hin
        exact hk0 (hsubkeys.subset hin)
      rw [hnone]
      exact hst1_frame k0 hk0
    refine ⟨hWF2, hframe2, ?_⟩
    intro kc hkc
    rcases hcase : lastRowByTg st.rows kc.1 with _ | wm
    · have hfnone : lastRowByTg fetched kc.1 = none := by
        rw [hlfilter kc.1 (List.mem_map_of_mem _ hkc)]
        exact hcase
      obtain ⟨hpk1, hpk2, hpk3⟩ := processItems_at_key_none batch fetched [] [] kc.1 kc.2
        hfN hkeys hKI (by exact hkc) hfnone
      have hcmem : kc.2 ∈ toCreate := by
        rw [htrip] at hpk2
        exact hpk2
      have hchar : ∀ c2 ∈ toCreate, c2 ∈ ([] : List CachedUser) ∨ c2 = kc.2 ∨
          c2.tg_user_id ≠ kc.1 := by
        rw [htrip] at hpk3
        exact hpk3
      rw [hn1, lastRowByTg_append]
      rcases hnl : lastRowByTg new2 kc.1 with _ | w2
      · rw [lastRowByTg_eq_none_iff] at hnl
        have hin : kc.1 ∈ new2.map (fun r => r.tg_user_id) := by
          rw [hn6, show kc.1 = kc.2.tg_user_id from (hKI kc hkc).symm]
          exact List.mem_map_of_mem _ hcmem
        obtain ⟨r2, hr2, htg2⟩ := List.mem_map.mp hin
        exact absurd htg2 (hnl r2 hr2)
      · obtain ⟨hw2mem, hw2tg⟩ := lastRowByTg_mem hnl
        obtain ⟨c2, hc2, i, hei⟩ := hn3 w2 hw2mem
        have hc2tg : c2.tg_user_id = kc.1 := by
          rw [hei, rowOfCached_tg] at hw2tg
          exact hw2tg
        have hc2e : c2 = kc.2 := by
          rcases hchar c2 hc2 with h0 | h0 | h0
          · exact absurd h0 (List.not_mem_nil _)
          · exact h0
          · exact absurd hc2tg h0
        refine ⟨w2, rfl, ?_⟩
        intro f hf
        rw [hei, rowOfCached_colGet i c2 f hf, hc2e]
    · have hfsome : lastRowByTg fetched kc.1 = some wm := by
        rw [hlfilter kc.1 (List.mem_map_of_mem _ hkc)]
        exact hcase
      obtain ⟨w, hw1, hw2, hw3, hw4, hw5, hw6⟩ := processItems_at_key_some batch fetched
        [] [] kc.1 kc.2 wm hfN hkeys hKI (by exact hkc) hfsome
      have hw2' : w ∈ work := by
        rw [htrip] at hw2
        exact hw2
      have hw5' : w = wm ∨ w.id ∈ updIds := by
        rw [htrip] at hw5
        exact hw5
      have hchar : ∀ c2 ∈ toCreate, c2 ∈ ([] : List CachedUser) ∨
          c2.tg_user_id ≠ kc.1 := by
        rw [htrip] at hw6
        exact hw6
      rw [hn1, lastRowByTg_append]
      have hnone : lastRowByTg new2 kc.1 = none := by
        rw [lastRowByTg_eq_none_iff]
        intro r hr he
        obtain ⟨c2, hc2, i, hei⟩ := hn3 r hr
        rcases hchar c2 hc2 with h0 | h0
        · exact absurd h0 (List.not_mem_nil _)
        · rw [hei, rowOfCached_tg] at he
          exact h0 he
      rw [hnone]
      exact ⟨w, hst1_at kc.1 wm w hcase hw2' hw3 hw5', hw4⟩

theorem syncBatch_fst (st : UserStore) (batch : List (Val × CachedUser)) :
    (syncBatch st batch).1 = syncBatchStore st batch := by
  rcases htrip : processItems
      (st.rows.filter (fun r => decide (r.tg_user_id ∈ batch.map (fun kc => kc.1))))
      [] [] batch with ⟨work, updIds, toCreate⟩
  simp only [syncBatch, syncBatchStore, processBatch, htrip]

theorem syncIO_cons_none (b : List (Val × CachedUser))
    (bs : List (List (Val × CachedUser))) (st : UserStore) :
    ( syncIO (b :: bs) st none).1 = ( syncIO bs (syncBatch st b).1 none).1 := by
  rcases hsb : syncBatch st b with ⟨st1, ops1⟩
  rcases hrec : syncIO bs st1 none with ⟨st2, ops2, raised⟩
  simp only [ syncIO, hsb, Option.map_none', hrec]

theorem syncIO_flush :
    ∀ (batches : List (List (Val × CachedUser))) (st : UserStore),
      UStoreWF st →
      ((batches.flatten.map (fun kc => kc.1)).Nodup) →
      (∀ kc ∈ batches.flatten, kc.2.tg_user_id = kc.1) →
      UStoreWF ( syncIO batches st none).1 ∧
      (∀ k0, k0 ∉ batches.flatten.map (fun kc => kc.1) →
        lastRowByTg ( syncIO batches st none).1.rows k0 = lastRowByTg st.rows k0) ∧
      (∀ kc ∈ batches.flatten, ∃ w,
        lastRowByTg ( syncIO batches st none).1.rows kc.1 = some w ∧
        ∀ f ∈ persistedUserFields, w.colGet f = kc.2.getattr f) := by
  intro batches
  induction batches with
  | nil =>
    intro st hWF _ _
    exact ⟨hWF, fun k0 _ => rfl, fun kc hkc => absurd hkc (by simp)⟩
  | cons b bs ih =>
    intro st hWF hN hKI
    rw [List.flatten_cons, List.map_append] at hN
    obtain ⟨hbN, hfN, hdisj⟩ := List.nodup_append.mp hN
    rw [List.flatten_cons] at hKI
    have hKIb : ∀ kc ∈ b, kc.2.tg_user_id = kc.1 :=
      fun kc hkc => hKI kc (List.mem_append_left _ hkc)
    have hKIf : ∀ kc ∈ bs.flatten, kc.2.tg_user_id = kc.1 :=
      fun kc hkc => hKI kc (List.mem_append_right _ hkc)
    have hbspec := syncBatchStore_spec st b ⟨hWF.1, hWF.2.1, hWF.2.2⟩ hbN hKIb
    rw [← syncBatch_fst] at hbspec
    obtain ⟨hWF1, hframe1, hat1⟩ := hbspec
    obtain ⟨hWF2, hframe2, hat2⟩ := ih (syncBatch st b).1 hWF1 hfN hKIf
    refine ⟨?_, ?_, ?_⟩
    · rw [syncIO_cons_none]
      exact hWF2
    · intro k0 hk0
      rw [List.flatten_cons, List.map_append, List.mem_append] at hk0
      obtain ⟨hk01, hk02⟩ := not_or.mp hk0
      rw [syncIO_cons_none]
      exact (hframe2 k0 hk02).trans (hframe1 k0 hk01)
    · intro kc hkc
      rw [List.flatten_cons] at hkc
      rw [syncIO_cons_none]
      rcases List.mem_append.mp hkc with hkcb | hkcf
      · obtain ⟨w, hw, hcols⟩ := hat1 kc hkcb
        refine ⟨w, ?_, hcols⟩
        rw [hframe2 kc.1 ?_]
        · exact hw
        · intro hmem
          exact hdisj (List.mem_map_of_mem _ hkcb) hmem
      · exact hat2 kc hkcf

theorem foldl_bootStep_alGet (rows : List UserRow) :
    ∀ (s : UState) (k : Val),
      alGet (rows.foldl bootStep s).cache k =
        match lastRowByTg rows k with
        | some r => some (cachedOfRow r)
        | none => alGet s.cache k := by
  induction rows with
  | nil => intro s k; rfl
  | cons r rest ih =>
    intro s k
    rw [List.foldl_cons, ih (bootStep s r) k, lastRowByTg_cons]
    rcases lastRowByTg rest k with _ | x
    · by_cases hr : r.tg_user_id = k
      · rw [if_pos hr]
        show alGet (bootStep s r).cache k = some (cachedOfRow r)
        have h : alGet (alInsert s.cache r.tg_user_id (cachedOfRow r)) k =
            some (cachedOfRow r) := by
          rw [alGet_alInsert, if_pos hr]
        exact h
      · rw [if_neg hr]
        show alGet (bootStep s r).cache k = alGet s.cache k
        have h : alGet (alInsert s.cache r.tg_user_id (cachedOfRow r)) k =
            alGet s.cache k := by
          rw [alGet_alInsert, if_neg hr]
        exact h
    · rfl

theorem sync_store_none (s : UState) (st : UserStore) (b : Nat)
    (hd : ¬ s.dirty = []) (hp : ¬ syncSnapshot s = []) :
    (sync s st b none).2.1 = ( syncIO (chunkList b (syncSnapshot s)) st none).1 := by
  rcases hio : syncIO (chunkList b (syncSnapshot s)) st none with ⟨st1, ops, raised⟩
  have hraised : raised = false := by
    have h := syncIO_none_not_raised (chunkList b (syncSnapshot s)) st
    rw [hio] at h
    exact h
  subst hraised
  simp only [sync, if_neg hd, if_neg hp, hio, Bool.false_eq_true, if_false]

end UserCache

/-- C4 witness: a dirty single-record state for each manager, with the
exception fired before the first batch commits. -/
theorem claim_C4_witness :
    (let c : CachedUser :=
      { id := Val.vNone, tg_user_id := Val.vInt 5, username := Val.vNone,
        first_name := Val.vNone, last_name := Val.vNone, is_bot := Val.vBool false,
        is_owner := Val.vBool false, banned_until := Val.vNone,
        messages_count := Val.vInt 0, meta := Val.vNone, created_at := Val.vNone,
        last_seen := Val.vNone }
     let s : UState := ⟨[(Val.vInt 5, c)], [], [Val.vInt 5]⟩
     let st : UserStore := { rows := [], nextId := 1 }
     ( UserCache.syncIO (UserCache.chunkList 1000 (UserCache.syncSnapshot s)) st (some 0)).2.2 = true ∧
       (UserCache.sync s st 1000 (some 0)).1 = s) ∧
    (let n : CachedNick :=
      { id := Val.vNone, tg_user_id := Val.vInt 1, tg_chat_id := Val.vInt 2,
        nick := Val.vStr "x", created_by_tg_id := Val.vNone, created_at := Val.vNone }
     let s : NState := ⟨[((Val.vInt 1, Val.vInt 2), n)], [(Val.vInt 1, Val.vInt 2)]⟩
     let st : NickStore :=
       { users := [], chats := [], nicks := [], nextUserId := 1, nextChatId := 1, nextNickId := 1 }
     s.dirty ≠ [] ∧ NickCache.syncSnapshot s ≠ [] ∧ (NickCache.sync s st true).1 = s) := by
  constructor
  · exact ⟨by decide, (claim_C4.1 _ _ 1000 0 (by decide)).1⟩
  · exact ⟨by decide, by decide, (claim_C4.2 _ _ (by decide) (by decide)).1⟩

end TgCache
